import Mathlib

/-!
# Verification of the wikidict fetch pipeline and wikitext parser

Shallow embedding of the wikidict source (`wikidict/wiki.py`,
`wikidict/parser.py`, `wikidict/model.py`, `wikidict/dictionary.py`) and
proofs about the embedded operations.

Strings manipulated by the parser are embedded as `List Char`; Python
dictionaries of query parameters are embedded as association lists with
Python `dict.update` semantics; the SQLAlchemy session is embedded as an
explicit record of stored rows threaded through every operation; the
MediaWiki HTTP transport is a black box, embedded as the list of responses
it returns (one per request, in order) or as a function from the batched
query argument to a response.  Fallible Python code (raising exceptions)
is embedded with `Except`/`Option`.
-/

namespace Wikidict

/-! ## Query-parameter dictionaries (Python `dict` of `str -> str`) -/

/-- Association list standing for a Python string-keyed dictionary.
Earlier entries are earlier insertions; a key occurs at most once. -/
abbrev Params := List (String × String)

/-- `d[k] = v`: replace the value at `k` if present, else append the pair,
as Python dictionary item assignment does. -/
def dictInsert (d : Params) (k v : String) : Params :=
  match d with
  | [] => [(k, v)]
  | (k0, v0) :: rest =>
      if k0 = k then (k0, v) :: rest else (k0, v0) :: dictInsert rest k v

/-- Python `d.update(u)`: assign every pair of `u` into `d`, in order. -/
def dictUpdate (d u : Params) : Params :=
  u.foldl (fun acc kv => dictInsert acc kv.1 kv.2) d

/-- Python `d[k]` lookup (first, and only, binding of `k`). -/
def dictGet (d : Params) (k : String) : Option String :=
  (d.find? (fun kv => kv.1 = k)).map (·.2)

/-! ## `WikiDownloader._continued_response` (wiki.py lines 91-119)

The generator is driven by a black-box `self.wiki.wiki_request`; we embed
the transport as the list of responses it hands back, one per issued
request, in order.  A response carries an optional `error` section, the
items that `result_parse_func` extracts from it, and an optional
`continue` section of parameters. -/

/-- One parsed MediaWiki API response, as seen by `_continued_response`:
the `error` section if present, the items produced by
`result_parse_func`, and the `continue` parameter section if present. -/
structure ApiResponse (α : Type) where
  error : Option String
  items : List α
  contin : Option Params
  deriving Repr, DecidableEq

/-- Result of running the `_continued_response` generator to completion:
the items it yielded, the `MediaWikiException` message if one was raised,
how many requests it issued, the final state of the (mutated)
`query_params` dictionary, the `query_params` snapshot sent with each
request, and the part of the transport it did not consume. -/
structure CRResult (α : Type) where
  yielded : List α
  err : Option String
  requests : Nat
  params : Params
  log : List Params
  rest : List (ApiResponse α)
  deriving Repr, DecidableEq

/-- `WikiDownloader._continued_response` (wiki.py lines 91-119), run to
exhaustion.  `responses` is the transport: the k-th issued request is
answered by the k-th element.  `received` is `received_results`.  The
`while True` loop: issue a request; raise on an `error` section; yield
each extracted item while `received_results` is below `max_results`,
returning as soon as an item finds the cap already reached; then merge
the `continue` section into `query_params` and repeat, or break if there
is none.  An exhausted transport ends the run (the black box has nothing
further to answer; no real scenario below reaches this case). -/
def continuedResponse (maxResults : Option Nat) :
    List (ApiResponse α) → Params → Nat → CRResult α
  | [], params, _ => ⟨[], none, 0, params, [], []⟩
  | r :: rest, params, received =>
      if h : r.error.isSome then
        ⟨[], some (r.error.get h), 1, params, [params], rest⟩
      else
        match maxResults with
        | some m =>
            if received + r.items.length ≤ m then
              -- every item of this page is yielded without reaching past the cap
              match r.contin with
              | none => ⟨r.items, none, 1, params, [params], rest⟩
              | some cp =>
                  let out := continuedResponse (some m) rest (dictUpdate params cp)
                    (received + r.items.length)
                  ⟨r.items ++ out.yielded, out.err, 1 + out.requests, out.params,
                    params :: out.log, out.rest⟩
            else
              -- an item finds `received_results` at the cap: `return` mid-page
              ⟨r.items.take (m - received), none, 1, params, [params], rest⟩
        | none =>
            match r.contin with
            | none => ⟨r.items, none, 1, params, [params], rest⟩
            | some cp =>
                let out := continuedResponse none rest (dictUpdate params cp)
                  (received + r.items.length)
                ⟨r.items ++ out.yielded, out.err, 1 + out.requests, out.params,
                  params :: out.log, out.rest⟩

/-- Total number of items across a list of responses. -/
def totalItems (rs : List (ApiResponse α)) : Nat :=
  (rs.map (fun r => r.items.length)).sum

/-- A well-formed paged remote sequence: at least one page, no `error`
sections, every page non-empty, a `continue` section on every response
except the last and none on the last. -/
def ChainOk : List (ApiResponse α) → Prop
  | [] => False
  | [r] => r.error = none ∧ r.items ≠ [] ∧ r.contin = none
  | r :: rest => r.error = none ∧ r.items ≠ [] ∧ r.contin.isSome ∧ ChainOk rest

instance : DecidablePred (ChainOk (α := α)) := fun rs => by
  induction rs with
  | nil => exact isFalse (fun h => h)
  | cons r rest ih =>
      have hi : Decidable (r.items ≠ []) :=
        match r.items with
        | [] => isFalse (fun h => h rfl)
        | _ :: _ => isTrue (by simp)
      cases rest with
      | nil =>
          unfold ChainOk
          exact @instDecidableAnd _ _ _ (@instDecidableAnd _ _ hi _)
      | cons r2 t =>
          unfold ChainOk
          exact @instDecidableAnd _ _ _ (@instDecidableAnd _ _ hi
            (@instDecidableAnd _ _ _ ih))

/-- Number of pages the driver must consume before the yielded count can
reach `m` items: the length of the shortest prefix holding at least `m`
items (all pages, when the whole sequence holds fewer). -/
def pagesToReach (m : Nat) : List (ApiResponse α) → Nat
  | [] => 0
  | r :: rest =>
      if m = 0 then 0
      else if m ≤ r.items.length then 1
      else 1 + pagesToReach (m - r.items.length) rest

/-! ## Data model (model.py) and the store

`WikiPage` mirrors the ORM row: `categories` is the ordered list of
association rows (category ids) of the `categoryassociation` table;
`redirect_to_id` is the foreign key of the redirect target.  The session
is the explicit store state: its page rows and category rows in insertion
order. -/

/-- A `pages` table row (model.py `WikiPage`). -/
structure WikiPage where
  id : Nat
  revision_id : Option Nat := none
  latest_revision_online : Option Nat := none
  content : Option String := none
  title : Option String := none
  redirect_to_id : Option Nat := none
  categories : List Nat := []
  deriving Repr, DecidableEq

/-- A `categories` table row (model.py `Category`). -/
structure Category where
  id : Nat
  name : String
  deriving Repr, DecidableEq

/-- The SQL session/store state: all stored rows, in insertion order. -/
structure Session where
  pages : List WikiPage := []
  categories : List Category := []
  deriving Repr, DecidableEq

/-- `session.query(WikiPage).get(page_id)`. -/
def Session.getPage (s : Session) (pid : Nat) : Option WikiPage :=
  s.pages.find? (fun p => p.id = pid)

/-- Upsert a full page row by primary key (`session.merge(page)` where
`page` carries the whole row state). -/
def Session.mergePage (s : Session) (p : WikiPage) : Session :=
  if s.pages.any (fun q => q.id = p.id) then
    { s with pages := s.pages.map (fun q => if q.id = p.id then p else q) }
  else
    { s with pages := s.pages ++ [p] }

/-- `session.merge(WikiPage(id=page_id, latest_revision_online=rev))`
(wiki.py line 77): only the attributes set on the transient object are
copied onto the persistent row; a missing row is inserted. -/
def Session.mergeRevision (s : Session) (pid rev : Nat) : Session :=
  if s.pages.any (fun q => q.id = pid) then
    { s with pages := s.pages.map (fun q =>
        if q.id = pid then { q with latest_revision_online := some rev } else q) }
  else
    { s with pages := s.pages ++ [{ id := pid, latest_revision_online := some rev }] }

/-- Modelled from the spec: `get_or_create` is imported by wiki.py from
`wikidict.model` (and exercised by `tests/test_model.py`) but its
definition is not among the provided sources.  The spec describes it as
get-or-create semantics: "look up by name, insert if absent, reuse the
existing row otherwise".  A fresh row gets the next free id. -/
def get_or_create (s : Session) (name : String) : Category × Session :=
  match s.categories.find? (fun c => c.name = name) with
  | some c => (c, s)
  | none =>
      let c : Category := ⟨s.categories.length, name⟩
      (c, { s with categories := s.categories ++ [c] })

/-! ## Content parsing helpers of wiki.py -/

/-- Exceptions the embedded Python code can raise. -/
inductive PyExn where
  /-- e.g. `str + dict` concatenation, or `re.match` applied to `None`. -/
  | typeError
  /-- attribute access on `None`. -/
  | attributeError
  /-- Python recursion limit (unbounded recursion of `update_pages`). -/
  | recursionError
  /-- `MediaWikiException` raised on an `error` response section. -/
  | mediaWikiException (msg : String)
  deriving Repr, DecidableEq

/-- `re.match('#REDIRECT \\[\\[([^\\]]+)\\]\\].*', content)` returning
group 1 (wiki.py lines 209, 240): the content must begin with the literal
`#REDIRECT [[`, then one or more characters other than `]` (the target,
matched greedily), then `]]`. -/
def parseRedirect (content : String) : Option String :=
  let cs := content.data
  let pre := "#REDIRECT [[".data
  if pre.isPrefixOf cs then
    let rest := cs.drop pre.length
    let tgt := rest.takeWhile (fun ch => ch ≠ ']')
    if tgt = [] then none
    else if (rest.drop tgt.length).take 2 = [']', ']'] then some (String.mk tgt)
    else none
  else none

/-- `re.sub('^Category:', '', title)` (wiki.py line 224). -/
def stripCategoryNs (t : String) : String :=
  if "Category:".data.isPrefixOf t.data then String.mk (t.data.drop "Category:".length) else t

/-- One entry of `response['query']['pages']` as read by
`_parse_pages_and_add`: whether the object carries a `missing` key, and
otherwise its `pageid`, `title`, `revisions[0]` (`revid` and content
`*`), and its `categories` list if the key is present. -/
structure PageObj where
  missing : Bool := false
  pageid : Nat := 0
  title : String := ""
  revid : Nat := 0
  content : String := ""
  categories : Option (List String) := none
  deriving Repr, DecidableEq

/-- The category-attachment loop of `_parse_pages_and_add` (wiki.py lines
222-225): for each `categories` entry, `get_or_create` the `Category` by
namespace-stripped name and append it to the page's category list. -/
def attachCategories (s : Session) (page : WikiPage) (cats : List String) :
    WikiPage × Session :=
  cats.foldl
    (fun (acc : WikiPage × Session) ct =>
      let (c, s2) := get_or_create acc.2 (stripCategoryNs ct)
      ({ acc.1 with categories := acc.1.categories ++ [c.id] }, s2))
    (page, s)

/-- `WikiDownloader._parse_pages_and_add` (wiki.py lines 182-229) over the
page objects of one response.  For each object: an object carrying
`missing` makes `logger.warning('Missing object in API request result: '
+ obj)` concatenate a `str` with a `dict`, which raises `TypeError`;
otherwise the page id is recorded, a leading redirect directive is
recorded as a pending redirect, the row is fetched or freshly created,
its revision ids, content and title are set, categories are attached via
`get_or_create`, and the row is merged. -/
def parse_pages_and_add (objs : List PageObj) (s : Session) :
    Except PyExn (List Nat × List (Nat × String) × Session) :=
  match objs with
  | [] => .ok ([], [], s)
  | obj :: rest =>
      if obj.missing then .error .typeError
      else
        let pending : List (Nat × String) :=
          match parseRedirect obj.content with
          | some tgt => [(obj.pageid, tgt)]
          | none => []
        let page0 := (s.getPage obj.pageid).getD { id := obj.pageid }
        let page1 := { page0 with
          revision_id := some obj.revid
          latest_revision_online := some obj.revid
          content := some obj.content
          title := some obj.title }
        let (page2, s2) :=
          match obj.categories with
          | some cats => attachCategories s page1 cats
          | none => (page1, s)
        let s3 := s2.mergePage page2
        match parse_pages_and_add rest s3 with
        | .error e => .error e
        | .ok (dl, rds, s4) => .ok (obj.pageid :: dl, pending ++ rds, s4)

/-! ## The fetch pipeline (wiki.py `WikiDownloader`) -/

/-- `WikiDownloader._iterable_grouper` (wiki.py lines 256-259) as it is
consumed: batches of `n` (the trailing `None` padding of `zip_longest` is
dropped again by the `'|'.join(... if s is not None)` at every use). -/
def chunksOfAux (n : Nat) : Nat → List α → List (List α)
  | _, [] => []
  | 0, _ :: _ => []
  | f + 1, x :: xs =>
      if n == 0 then [] else (x :: xs).take n :: chunksOfAux n f ((x :: xs).drop n)

def chunksOf (n : Nat) (l : List α) : List (List α) :=
  chunksOfAux n l.length l

/-- `'|'.join(str(s) for s in group if s is not None)`. -/
def joinPipe (group : List String) : String :=
  String.intercalate "|" group

/-- Python `page_ids or page_titles` (wiki.py line 159) followed by
iteration: a non-`None`, non-empty id list is used; otherwise the titles;
iterating `None` raises `TypeError`. -/
def pyOrItems : Option (List Nat) → Option (List String) → Except PyExn (List String)
  | some l, t =>
      if l.isEmpty then
        match t with
        | some ts => .ok ts
        | none => .error .typeError
      else .ok (l.map (fun n => toString n))
  | none, some ts => .ok ts
  | none, none => .error .typeError

/-- The transport behind `update_pages` content queries: one response
(its `query.pages` objects) per batched request, keyed by the addressing
mode (`pageids` or `titles`) and the `|`-joined batch value.  The
destructuring `_downloaded, _redirects = self._continued_response(...)`
in the source (wiki.py line 163) consumes exactly the two lists parsed
from a single response, so a content response carries no `continue`
section. -/
structure Transport where
  req : String → String → List PageObj

/-- The batch loop of `update_pages` (wiki.py lines 159-169): for each
group of 50, set `query_params[based_on]`, issue the request, parse pages
into the store, collect downloaded ids and pending redirects, commit.
Also returns the log of issued requests. -/
def updatePagesBatches (T : Transport) (based_on : String) (items : List String)
    (s : Session) :
    Except PyExn (List Nat × List (Nat × String) × Session × List (String × String)) :=
  (chunksOf 50 items).foldlM
    (fun acc group =>
      let joined := joinPipe group
      match parse_pages_and_add (T.req based_on joined) acc.2.2.1 with
      | .error e => .error e
      | .ok (dl, rds, s2) =>
          .ok (acc.1 ++ dl, acc.2.1 ++ rds, s2, acc.2.2.2 ++ [(based_on, joined)]))
    ([], [], s, [])

/-- `WikiDownloader.link_redirects` (wiki.py lines 231-254): for each
source id, re-derive the redirect target title from the stored content
(`.content` on a missing row raises `AttributeError`; `re.match` on a row
without content raises `TypeError`), look up the first page with that
title, and if found set the source's `redirect_to_id`. -/
def link_redirects (s : Session) (page_ids : List Nat) : Except PyExn Session :=
  match page_ids with
  | [] => .ok s
  | pid :: rest =>
      match s.getPage pid with
      | none => .error .attributeError
      | some src =>
          match src.content with
          | none => .error .typeError
          | some content =>
              match parseRedirect content with
              | none => link_redirects s rest
              | some tgt =>
                  match s.pages.find? (fun p => p.title = some tgt) with
                  | none => link_redirects s rest
                  | some target =>
                      let s2 := s.mergePage { src with redirect_to_id := some target.id }
                      link_redirects s2 rest

/-- `WikiDownloader.update_pages` (wiki.py lines 134-180).  After the
batch loop, when `follow_redirects` is set and pending redirects were
recorded, `zip(*redirects)` splits them into source ids and target
titles, the target titles are fetched by a recursive call (again with
`follow_redirects`), `link_redirects` runs over the source ids, and the
recursive call's ids are appended to the returned list.  `fuel` bounds
the recursion depth (Python's interpreter limit). -/
def update_pages (T : Transport) (fuel : Nat) (s : Session)
    (page_ids : Option (List Nat)) (page_titles : Option (List String))
    (follow_redirects : Bool) :
    Except PyExn (List Nat × Session × List (String × String)) :=
  match fuel with
  | 0 => .error .recursionError
  | fuel + 1 =>
      let based_on := if page_ids.isSome then "pageids" else "titles"
      match pyOrItems page_ids page_titles with
      | .error e => .error e
      | .ok items =>
          match updatePagesBatches T based_on items s with
          | .error e => .error e
          | .ok (dl, rds, s1, log1) =>
              if follow_redirects ∧ rds ≠ [] then
                let srcIds := rds.map (fun r => r.1)
                let tgtTitles := rds.map (fun r => r.2)
                match update_pages T fuel s1 none (some tgtTitles) follow_redirects with
                | .error e => .error e
                | .ok (dl2, s2, log2) =>
                    match link_redirects s2 srcIds with
                    | .error e => .error e
                    | .ok s3 => .ok (dl ++ dl2, s3, log1 ++ log2)
              else .ok (dl, s1, log1)

/-- The `outdated` row filter of `update_outdated_pages` (wiki.py lines
129-131): `revision_id == None` or `revision_id <
latest_revision_online` under SQL comparison semantics (a comparison
against NULL is not satisfied). -/
def outdatedFilter (p : WikiPage) : Bool :=
  p.revision_id.isNone ||
    (match p.revision_id, p.latest_revision_online with
     | some l, some r => decide (l < r)
     | _, _ => false)

/-- The rows selected by `update_outdated_pages` (wiki.py lines 129-131). -/
def outdatedSelection (s : Session) : List WikiPage :=
  s.pages.filter outdatedFilter

/-- `WikiDownloader.update_outdated_pages` (wiki.py lines 121-132): feed
the ids of the outdated selection into `update_pages` with
`follow_redirects=False`. -/
def update_outdated_pages (T : Transport) (fuel : Nat) (s : Session) :
    Except PyExn (List Nat × Session × List (String × String)) :=
  update_pages T fuel s (some ((outdatedSelection s).map (fun p => p.id))) none false

/-- `WikiDownloader.update_latest_revisions` (wiki.py lines 49-79).  One
`query_params` dictionary is created before the batch loop and reused
across all batches; `_continued_response` mutates it in place, so
`continue` parameters merged in one batch are still present when the next
batch assigns `query_params[based_on]` and issues its first request.  The
transport is the stream of responses, consumed across batches in order.
Returns the final store, the final `query_params`, the `query_params`
snapshot of every issued request, and the unconsumed transport; an
`error` response raises `MediaWikiException`. -/
def update_latest_revisions (stream : List (ApiResponse (Nat × Nat))) (s : Session)
    (page_ids : Option (List Nat)) (page_titles : Option (List String)) :
    Except PyExn (Session × Params × List Params × List (ApiResponse (Nat × Nat))) :=
  let based_on :=
    if page_ids.isNone ∧ page_titles.isNone then "pageids"
    else if page_ids.isSome then "pageids" else "titles"
  let items : List String :=
    if page_ids.isNone ∧ page_titles.isNone then
      s.pages.map (fun p => toString p.id)
    else
      match page_ids, page_titles with
      | some l, _ => if l.isEmpty then (page_titles.getD []) else l.map (fun n => toString n)
      | none, some ts => ts
      | none, none => []
  let init : Params := [("prop", "revisions"), ("rvprop", "ids")]
  (chunksOf 50 items).foldlM
    (fun acc group =>
      let params := dictInsert acc.2.1 based_on (joinPipe group)
      let cr := continuedResponse none acc.2.2.2 params 0
      match cr.err with
      | some msg => .error (.mediaWikiException msg)
      | none =>
          let s2 := cr.yielded.foldl (fun st pr => st.mergeRevision pr.1 pr.2) acc.1
          .ok (s2, cr.params, acc.2.2.1 ++ cr.log, cr.rest))
    (s, init, [], stream)

/-! ## TextParser (parser.py)

Text is embedded as `List Char`.  Python `str.find(sub, start)` is
embedded as an `Option Nat`-returning search (`none` for `-1`). -/

/-- The open-brace character. -/
def obc : Char := Char.ofNat 123

/-- The close-brace character. -/
def cbc : Char := Char.ofNat 125

/-- `Parser.template_start_delimiter` (two open braces). -/
def openB : List Char := [obc, obc]

/-- `Parser.template_stop_delimiter` (two close braces). -/
def closeB : List Char := [cbc, cbc]

/-- Text with no brace character at all. -/
def braceFree (l : List Char) : Prop :=
  obc ∉ l ∧ cbc ∉ l

/-- The region between an open marker and its first following close
marker, as a chain of brace-free segments separated by further open
markers: `chainJoin [x0, x1, ..., xm] = x0 ++ open ++ x1 ++ ... ++ open
++ xm`. -/
def chainJoin : List (List Char) → List Char
  | [] => []
  | [x] => x
  | x :: xs => x ++ openB ++ chainJoin xs

/-- A run of unmatched open markers with their trailing segments:
`openPrefixJoin [y0, ..., yk] = open ++ y0 ++ open ++ y1 ++ ... ++ open
++ yk`.  This is what the template scanner leaves of a chain whose last
segment was closed. -/
def openPrefixJoin : List (List Char) → List Char
  | [] => []
  | y :: t => openB ++ y ++ openPrefixJoin t

/-- Index of the first occurrence of `nd` in the list, if any. -/
def firstOcc (nd : List Char) : List Char → Option Nat
  | [] => none
  | c :: t => if nd.isPrefixOf (c :: t) then some 0 else (firstOcc nd t).map (· + 1)

/-- Python `content.find(nd, s)`: index of the first occurrence of `nd`
at or after position `s` (`none` for `-1`). -/
def findFrom (c nd : List Char) (s : Nat) : Option Nat :=
  (firstOcc nd (c.drop s)).map (· + s)

/-- `nd` occurs in `c` at index `i`. -/
def OccursAt (c nd : List Char) (i : Nat) : Prop :=
  nd.isPrefixOf (c.drop i)

/-- `Parser._remove_templates` (parser.py lines 57-73), fuel-indexed.
Each `while True` iteration: find the first open marker, the first close
marker after it, and the first further open marker; return the content
as-is when open or close is missing; recurse into the nested span
`content[next_start : stop_idx+2]` when a further open marker precedes
the close; otherwise cut `content[start_idx : stop_idx+2]` and loop.
The fuel only bounds the loop/recursion depth; `remove_templates_stable`
below shows `content.length` fuel is always enough, i.e. the Python loop
terminates. -/
def removeT : Nat → List Char → List Char
  | 0, c => c
  | f + 1, c =>
      match findFrom c openB 0 with
      | none => c
      | some start =>
          match findFrom c closeB (start + 2) with
          | none => c
          | some stop =>
              match findFrom c openB (start + 2) with
              | some next =>
                  if next < stop then
                    removeT f (c.take next ++ removeT f ((c.drop next).take (stop + 2 - next))
                      ++ c.drop (stop + 2))
                  else removeT f (c.take start ++ c.drop (stop + 2))
              | none => removeT f (c.take start ++ c.drop (stop + 2))

/-- `Parser.remove_templates` = `Parser._remove_templates` run to
completion (fuel `content.length` suffices, see
`remove_templates_stable`). -/
def remove_templates (c : List Char) : List Char :=
  removeT c.length c

/-- Balanced template markup: scanning left to right, braces occur only
as complete open/close markers, no close marker appears at depth zero,
and the final depth is zero. -/
def balancedAux : List Char → Nat → Bool
  | [], d => d == 0
  | [c], d => (c != obc) && (c != cbc) && (d == 0)
  | c1 :: c2 :: t, d =>
      if c1 = obc && c2 = obc then balancedAux t (d + 1)
      else if c1 = cbc && c2 = cbc then
        decide (0 < d) && balancedAux t (d - 1)
      else (c1 != obc) && (c1 != cbc) && balancedAux (c2 :: t) d

/-- Text containing only balanced (possibly nested) template markers. -/
def Balanced (c : List Char) : Prop :=
  balancedAux c 0 = true

instance : DecidablePred Balanced := fun c =>
  inferInstanceAs (Decidable (balancedAux c 0 = true))

/-- Python `str.replace(old, new)` on character lists: every
non-overlapping occurrence, scanning left to right (fuel-indexed; each
step consumes at least one character, so `c.length` fuel is enough). -/
def replaceAllAux (old new : List Char) : Nat → List Char → List Char
  | 0, c => c
  | _ + 1, [] => []
  | f + 1, ch :: rest =>
      if !old.isEmpty && old.isPrefixOf (ch :: rest) then
        new ++ replaceAllAux old new f ((ch :: rest).drop old.length)
      else ch :: replaceAllAux old new f rest

/-- Python `str.replace(old, new)` on character lists. -/
def replaceAll (old new : List Char) (c : List Char) : List Char :=
  replaceAllAux old new c.length c

/-- The apostrophe character. -/
def apos : Char := Char.ofNat 39

/-- Attempt the link pattern `\[\[([^|\]]+)(?:\|([^\]]+))?\]\]` at the
head of the list: two open brackets, a non-empty greedy run of
characters other than `|` and `]` (the target), optionally a pipe and a
non-empty greedy run of characters other than `]` (the display text),
two close brackets.  Returns target, optional display text and the
match length. -/
def matchLinkAt (cs : List Char) : Option (List Char × Option (List Char) × Nat) :=
  match cs with
  | '[' :: '[' :: rest =>
      let tgt := rest.takeWhile (fun ch => ch != '|' && ch != ']')
      if tgt.isEmpty then none
      else
        match rest.drop tgt.length with
        | '|' :: rest3 =>
            let disp := rest3.takeWhile (fun ch => ch != ']')
            if disp.isEmpty then none
            else if (rest3.drop disp.length).take 2 = [']', ']'] then
              some (tgt, some disp, tgt.length + disp.length + 5)
            else none
        | ']' :: ']' :: _ => some (tgt, none, tgt.length + 4)
        | _ => none
  | _ => none

/-- `re.search` for the link pattern: the match with the leftmost
starting position, as `(start, target, display?, length)`. -/
def findLink : List Char → Option (Nat × List Char × Option (List Char) × Nat)
  | [] => none
  | c :: t =>
      match matchLinkAt (c :: t) with
      | some (tg, d, len) => some (0, tg, d, len)
      | none => (findLink t).map (fun r => (r.1 + 1, r.2.1, r.2.2.1, r.2.2.2))

/-- `'[{}](#{})'.format(name, target.replace(' ', '-').lower())`:
the output link for a match (`name` defaults to the target). -/
def mkLink (tgt : List Char) (disp : Option (List Char)) : List Char :=
  let slug := tgt.map (fun ch => if ch = ' ' then '-' else ch.toLower)
  '[' :: disp.getD tgt ++ ']' :: '(' :: '#' :: slug ++ [')']

/-- Number of (possibly overlapping) occurrences of `nd`. -/
def countOcc (nd : List Char) : List Char → Nat
  | [] => 0
  | c :: t => (if nd.isPrefixOf (c :: t) then 1 else 0) + countOcc nd t

/-- `Parser.__replace_links` (parser.py lines 26-35), fuel-indexed: while
the pattern matches, substitute the output link for the match and search
again.  `replace_links_stable` below shows that one more than the number
of `]]` occurrences is always enough fuel, i.e. the Python loop
terminates. -/
def replaceLinksF : Nat → List Char → List Char
  | 0, c => c
  | f + 1, c =>
      match findLink c with
      | none => c
      | some (i, tg, d, len) =>
          replaceLinksF f (c.take i ++ mkLink tg d ++ c.drop (i + len))

/-- The closing-bracket pair terminating every link match. -/
def closeBr : List Char := [']', ']']

/-- `Parser.__replace_links` run to completion. -/
def replace_links (c : List Char) : List Char :=
  replaceLinksF (countOcc closeBr c + 1) c

/-- `Parser.to_markdown` (parser.py lines 19-24): substitute the triple
apostrophe with `**`, then the double apostrophe with `*`, then rewrite
the links. -/
def to_markdown (c : List Char) : List Char :=
  replace_links (replaceAll [apos, apos] ['*'] (replaceAll [apos, apos, apos] ['*', '*'] c))

/-- `Parser.remove_category_links` (parser.py lines 53-55):
`re.sub('\[\[Category:[^\]]+\]\]', '', content)` — every non-overlapping
occurrence of a bracketed category link is removed (fuel-indexed; each
step consumes at least one character, so `c.length` fuel is enough). -/
def removeCategoryLinksAux : Nat → List Char → List Char
  | 0, c => c
  | _ + 1, [] => []
  | f + 1, ch :: rest =>
      if "[[Category:".data.isPrefixOf (ch :: rest) then
        let r2 := (ch :: rest).drop 11
        let body := r2.takeWhile (fun x => x != ']')
        if !body.isEmpty && decide ((r2.drop body.length).take 2 = [']', ']']) then
          removeCategoryLinksAux f (r2.drop (body.length + 2))
        else ch :: removeCategoryLinksAux f rest
      else ch :: removeCategoryLinksAux f rest

/-- `Parser.remove_category_links` (parser.py lines 53-55). -/
def remove_category_links (c : List Char) : List Char :=
  removeCategoryLinksAux c.length c

/-- Python `str.strip()`: remove leading and trailing whitespace. -/
def pyStrip (c : List Char) : List Char :=
  ((c.dropWhile Char.isWhitespace).reverse.dropWhile Char.isWhitespace).reverse

/-- Helper for `get_first_section`: the content up to (excluding) the
first section header, i.e. the first line starting with `==`. -/
def takeUntilHeading : List Char → Bool → List Char
  | [], _ => []
  | ch :: rest, atLineStart =>
      if atLineStart && ['=', '='].isPrefixOf (ch :: rest) then []
      else ch :: takeUntilHeading rest (ch = '\n')

/-- Modelled from the spec: `Parser.get_first_section` (parser.py lines
37-44) delegates to the external `mwparserfromhell` library
(`parse(...).get_sections()[0].strip()`), whose code is not part of this
repository.  The spec (§4.1) describes the operation as: return only the
content preceding the first second-level-or-deeper section header, with
leading and trailing whitespace trimmed; the whole trimmed text when
there is no header. -/
def get_first_section (c : List Char) : List Char :=
  pyStrip (takeUntilHeading c true)

/-- The full body chain used on stored content
(`Parser(content).remove_templates().get_first_section()
.remove_category_links().to_markdown().content`, dictionary.py lines
69-74). -/
def parseBody (content : String) : String :=
  String.mk (to_markdown (remove_category_links (get_first_section
    (remove_templates content.data))))

/-! ## DictionaryRenderer (dictionary.py) -/

/-- Python `'{}'.format(x)` where `x` may be `None`. -/
def pyFormatOpt (o : Option String) : String :=
  o.getD "None"

/-- The ORM backref `page.redirect_from`: the stored pages whose
`redirect_to_id` references this page, in store order. -/
def redirectFrom (s : Session) (p : WikiPage) : List WikiPage :=
  s.pages.filter (fun q => q.redirect_to_id = some p.id)

/-- `[c.name for c in page.categories]` (dictionary.py line 89): the
names of the page's category references, via the association rows. -/
def categoryNames (s : Session) (p : WikiPage) : List String :=
  p.categories.map (fun cid =>
    ((s.categories.find? (fun c => c.id = cid)).map (fun c => c.name)).getD "None")

/-- The `for variant in self.variants` loop of `DictEntry._format_kobo`
(dictionary.py lines 78-79). -/
def variantLines : List (Option String) → String
  | [] => ""
  | v :: vs => "& " ++ pyFormatOpt v ++ "\n" ++ variantLines vs

/-- `DictEntry._format_kobo` (dictionary.py lines 68-82): headword line;
`: first-category` line when the category list is non-empty; one
`& variant` line per variant; the parsed body (empty when `content` is
`None`) followed by a newline when non-empty; and a final newline. -/
def format_kobo (title : Option String) (content : Option String)
    (categories : List String) (variants : List (Option String)) : String :=
  let body := match content with
    | none => ""
    | some c => parseBody c
  let s1 := "@ " ++ pyFormatOpt title ++ "\n"
  let s2 := s1 ++ (match categories with
    | [] => ""
    | c0 :: _ => ": " ++ c0 ++ "\n")
  let s3 := s2 ++ variantLines variants
  let s4 := s3 ++ (if body.length > 0 then body ++ "\n" else "")
  s4 ++ "\n"

/-- `DictEntry.from_wikipage(page).format('kobo')` (dictionary.py lines
84-90 then 59-66). -/
def entryOf (s : Session) (p : WikiPage) : String :=
  format_kobo p.title p.content (categoryNames s p)
    ((redirectFrom s p).map (fun q => q.title))

/-- The `order_by('title')` comparison: SQL ascending with NULLs first. -/
def titleLe (p q : WikiPage) : Bool :=
  match p.title, q.title with
  | none, _ => true
  | some _, none => false
  | some a, some b => decide (a ≤ b)

/-- `Dictionary.save` (dictionary.py lines 22-34): stream every stored
page with `redirect_to_id == None`, ordered by title, through
`DictEntry.from_wikipage(...).format(dict_format)` and concatenate what
is written to the sink. -/
def dictionary_save (s : Session) : String :=
  String.join
    (((s.pages.filter (fun p => p.redirect_to_id = none)).mergeSort titleLe).map
      (entryOf s))

/-- The entry format as the spec states it (§4.4): a headword line, an
optional info line (first category name, if any), zero or more variant
lines (titles of pages that redirect to this page), the parsed body, and
a blank line terminator.  Stated independently of `format_kobo` as a list
of lines, each terminated by a newline, followed by the blank-line
terminator. -/
def specKoboEntry (s : Session) (p : WikiPage) : String :=
  let body := match p.content with
    | none => ""
    | some c => parseBody c
  let lines : List String :=
    ["@ " ++ pyFormatOpt p.title]
    ++ (match categoryNames s p with
        | [] => []
        | c0 :: _ => [": " ++ c0])
    ++ (redirectFrom s p).map (fun q => "& " ++ pyFormatOpt q.title)
    ++ (if body.length > 0 then [body] else [])
  String.join (lines.map (fun l => l ++ "\n")) ++ "\n"

/-- The renderer contract as the spec states it: one entry per stored
page whose redirect reference is absent, in order of title, each in the
spec's entry format; pages with a redirect reference contribute nothing. -/
def specSave (s : Session) : String :=
  String.join
    (((s.pages.filter (fun p => p.redirect_to_id = none)).mergeSort titleLe).map
      (specKoboEntry s))

/-- Concrete content transport for a three-page scenario: pages 1 (`A`)
and 2 (`B`) both redirect to the title `D`, which is page 3, itself part
of the primary batch. -/
def c4Transport : Transport :=
  ⟨fun based_on joined =>
    if based_on == "pageids" && joined == "1|2|3" then
      [{ pageid := 1, title := "A", revid := 1, content := "#REDIRECT [[D]] x" },
       { pageid := 2, title := "B", revid := 1, content := "#REDIRECT [[D]] y" },
       { pageid := 3, title := "D", revid := 1, content := "plain d" }]
    else if based_on == "titles" && joined == "D|D" then
      [{ pageid := 3, title := "D", revid := 1, content := "plain d" }]
    else []⟩

/-- The store state after the primary batch of the three-page redirect
scenario: pages 1-3 merged, no categories. -/
def c4S1 : Session :=
  { pages := [
      { id := 1, revision_id := some 1, latest_revision_online := some 1,
        content := some "#REDIRECT [[D]] x", title := some "A",
        redirect_to_id := none, categories := [] },
      { id := 2, revision_id := some 1, latest_revision_online := some 1,
        content := some "#REDIRECT [[D]] y", title := some "B",
        redirect_to_id := none, categories := [] },
      { id := 3, revision_id := some 1, latest_revision_online := some 1,
        content := some "plain d", title := some "D",
        redirect_to_id := none, categories := [] }],
    categories := [] }

/-! ## Theorems -/

theorem stringFoldl_init (init : String) (l : List String) :
    l.foldl (fun r t => r ++ t) init = init ++ l.foldl (fun r t => r ++ t) "" := by
  induction l generalizing init with
  | nil => simp
  | cons b bt ihl =>
      simp only [List.foldl_cons]
      rw [ihl, ihl ("" ++ b)]
      simp [String.append_assoc]

theorem stringJoin_cons (a : String) (t : List String) :
    String.join (a :: t) = a ++ String.join t := by
  show List.foldl (fun r u => r ++ u) ("" ++ a) t = _
  rw [stringFoldl_init]
  simp [String.join]

theorem stringJoin_append (l1 l2 : List String) :
    String.join (l1 ++ l2) = String.join l1 ++ String.join l2 := by
  induction l1 with
  | nil => simp [String.join]
  | cons a t ih =>
      rw [List.cons_append, stringJoin_cons, stringJoin_cons, ih, String.append_assoc]

theorem variantLines_join (l : List WikiPage) :
    variantLines (l.map (fun q => q.title))
      = String.join ((l.map (fun q => "& " ++ pyFormatOpt q.title)).map (fun u => u ++ "\n")) := by
  induction l with
  | nil => simp [variantLines, String.join]
  | cons q qs ih =>
      simp only [List.map_cons]
      rw [stringJoin_cons]
      show "& " ++ pyFormatOpt q.title ++ "\n" ++ variantLines (qs.map (fun q => q.title)) = _
      rw [ih]

theorem entryOf_eq_spec (s : Session) (p : WikiPage) : entryOf s p = specKoboEntry s p := by
  unfold entryOf format_kobo specKoboEntry
  simp only [List.map_append, List.map_cons, List.map_nil]
  rw [stringJoin_append, stringJoin_append, stringJoin_append, ← variantLines_join]
  cases hc : categoryNames s p with
  | nil =>
      cases hp : p.content with
      | none =>
          simp only [String.length]
          by_cases hb : ("" : String).length > 0
        <;> simp_all [String.join, String.append_assoc, stringJoin_cons]
      | some c =>
          by_cases hb : (parseBody c).length > 0
        <;> simp_all [String.join, String.append_assoc, stringJoin_cons]
  | cons c0 cs =>
      cases hp : p.content with
      | none =>
          by_cases hb : ("" : String).length > 0
        <;> simp_all [String.join, String.append_assoc, stringJoin_cons]
      | some c =>
          by_cases hb : (parseBody c).length > 0
        <;> simp_all [String.join, String.append_assoc, stringJoin_cons]

theorem titleLe_trans (a b c : WikiPage) (h1 : titleLe a b = true) (h2 : titleLe b c = true) :
    titleLe a c = true := by
  unfold titleLe at *
  cases ha : a.title <;> cases hb : b.title <;> cases hc : c.title <;> simp_all
  exact le_trans h1 h2

theorem titleLe_total (a b : WikiPage) : (titleLe a b || titleLe b a) = true := by
  unfold titleLe
  cases a.title <;> cases b.title <;> simp_all
  exact le_total _ _

/-- C9: `Dictionary.save` writes exactly one entry, in the spec's entry
format (headword line, optional first-category info line, one variant
line per page redirecting here, the parsed body, blank-line terminator),
for every stored page whose redirect reference is absent and none for a
page whose redirect reference is set, ordered by title. -/
theorem dictionary_save_matches_spec (s : Session) :
    dictionary_save s = specSave s ∧
    ((s.pages.filter (fun p => p.redirect_to_id = none)).mergeSort titleLe).Pairwise
      (fun p q => titleLe p q = true) ∧
    ((s.pages.filter (fun p => p.redirect_to_id = none)).mergeSort titleLe).Perm
      (s.pages.filter (fun p => p.redirect_to_id = none)) := by
  refine ⟨?_, ?_, ?_⟩
  · unfold dictionary_save specSave
    congr 1
    exact List.map_congr_left (fun p _ => entryOf_eq_spec s p)
  · exact List.sorted_mergeSort titleLe_trans titleLe_total _
  · exact List.mergeSort_perm _ _

/-- C8: the outdated-page selection of `update_outdated_pages` includes a
stored page iff its local revision is absent or strictly below its known
remote revision; in particular local 5 / remote 7 is selected, local 7 /
remote 7 is not, and an absent local revision is always selected. -/
theorem outdated_selection_iff :
    (∀ (s : Session) (p : WikiPage),
      p ∈ outdatedSelection s ↔
        p ∈ s.pages ∧ (p.revision_id = none ∨
          ∃ l r, p.revision_id = some l ∧ p.latest_revision_online = some r ∧ l < r)) ∧
    outdatedFilter { id := 1, revision_id := some 5, latest_revision_online := some 7 } = true ∧
    outdatedFilter { id := 2, revision_id := some 7, latest_revision_online := some 7 } = false ∧
    (∀ r : Nat, outdatedFilter { id := 3, revision_id := none, latest_revision_online := some r }
      = true) := by
  refine ⟨?_, by decide, by decide, fun r => by simp [outdatedFilter]⟩
  intro s p
  unfold outdatedSelection
  rw [List.mem_filter]
  constructor
  · rintro ⟨hmem, hf⟩
    refine ⟨hmem, ?_⟩
    unfold outdatedFilter at hf
    cases hl : p.revision_id with
    | none => exact Or.inl rfl
    | some l =>
        cases hr : p.latest_revision_online with
        | none => simp [hl, hr] at hf
        | some r =>
            simp only [hl, hr, Option.isNone_some, Bool.false_or] at hf
            exact Or.inr ⟨l, r, rfl, rfl, by simpa using hf⟩
  · rintro ⟨hmem, hcond⟩
    refine ⟨hmem, ?_⟩
    unfold outdatedFilter
    rcases hcond with hnone | ⟨l, r, hl, hr, hlt⟩
    · simp [hnone]
    · simp [hl, hr, hlt]

/-- C2 (code slip): a response object marked `missing` makes
`_parse_pages_and_add` raise `TypeError` — the warning message
concatenates a `str` with the `dict` — aborting the whole batch, instead
of logging, skipping the object and continuing; the same batch without
the missing object is processed fine. -/
theorem parse_pages_missing_raises :
    parse_pages_and_add
        [{ missing := true }, { pageid := 7, title := "B", revid := 3, content := "b" }]
        ({} : Session)
      = .error .typeError ∧
    (parse_pages_and_add [{ pageid := 7, title := "B", revid := 3, content := "b" }]
        ({} : Session)).isOk = true := by
  constructor
  · rfl
  · rfl

/-- C3 (code slip): re-fetching the same page content reuses the existing
`Category` row (only one row named `Foo` ever exists) but appends a
second reference to the page's category list, so the rerun duplicates
the Category reference on the page. -/
theorem category_refetch_duplicates :
    parse_pages_and_add
        [{ pageid := 1, title := "A", revid := 5, content := "hello",
           categories := some ["Category:Foo"] }] ({} : Session)
      = .ok ([1], [],
          { pages := [{ id := 1, revision_id := some 5, latest_revision_online := some 5,
                        content := some "hello", title := some "A", categories := [0] }],
            categories := [⟨0, "Foo"⟩] }) ∧
    parse_pages_and_add
        [{ pageid := 1, title := "A", revid := 5, content := "hello",
           categories := some ["Category:Foo"] }]
        { pages := [{ id := 1, revision_id := some 5, latest_revision_online := some 5,
                      content := some "hello", title := some "A", categories := [0] }],
          categories := [⟨0, "Foo"⟩] }
      = .ok ([1], [],
          { pages := [{ id := 1, revision_id := some 5, latest_revision_online := some 5,
                        content := some "hello", title := some "A", categories := [0, 0] }],
            categories := [⟨0, "Foo"⟩] }) := by
  constructor
  · rfl
  · rfl

/-- C1 counterexample: a three-page remote sequence with continuation
tokens between the pages, one item per page, queried with
`max_results=2`: exactly 2 items are yielded, but the driver issues a
third request after the yielded count has already reached the cap (the
cap was reached exactly at a page boundary), contradicting "at most 2
underlying requests". -/
theorem continued_response_third_request :
    (continuedResponse (some 2)
        [⟨none, [10], some [("c", "1")]⟩, ⟨none, [20], some [("c", "2")]⟩, ⟨none, [30], none⟩]
        [] 0).yielded = [10, 20] ∧
    (continuedResponse (some 2)
        [⟨none, [10], some [("c", "1")]⟩, ⟨none, [20], some [("c", "2")]⟩, ⟨none, [30], none⟩]
        [] 0).requests = 3 ∧
    ¬ (continuedResponse (some 2)
        [⟨none, [10], some [("c", "1")]⟩, ⟨none, [20], some [("c", "2")]⟩, ⟨none, [30], none⟩]
        [] 0).requests ≤ 2 := by
  refine ⟨rfl, rfl, by decide⟩

/-- C10: `_continued_response` mutates the `query_params` dictionary it
is given, merging every `continue` section into it, and in
`update_latest_revisions` — one `query_params` reused across all
batches — the continuation parameters merged during one batch are still
in the dictionary sent with the first request of the next batch.  The
general part: for a two-response transport whose first response carries
continuation parameters `cp`, the final dictionary is the caller's with
`cp` assigned, and the second request already carries it.  The concrete
part: 51 ids (two batches of 50), the first batch answered in two pages
with `rvcontinue=X` between them: the third request (first of batch 2)
still carries `rvcontinue=X`. -/
theorem continued_response_mutates_params :
    (∀ (params cp : Params) (xs ys : List (Nat × Nat)),
      (continuedResponse none [⟨none, xs, some cp⟩, ⟨none, ys, none⟩] params 0).params
          = dictUpdate params cp ∧
      (continuedResponse none [⟨none, xs, some cp⟩, ⟨none, ys, none⟩] params 0).log
          = [params, dictUpdate params cp]) ∧
    ((update_latest_revisions
        [⟨none, [(1, 5)], some [("rvcontinue", "X"), ("continue", "-||")]⟩,
         ⟨none, [(2, 6)], none⟩,
         ⟨none, [(51, 7)], none⟩]
        ({} : Session) (some ((List.range 51).map (fun n => n + 1))) none).toOption.map
          (fun r => (dictGet r.2.1 "rvcontinue",
            r.2.2.1.map (fun p => dictGet p "rvcontinue")))
      = some (some "X", [none, some "X", some "X"])) := by
  constructor
  · intro params cp xs ys
    constructor <;> rfl
  · rfl

/-- C4 counterexample: three pages where pages 1 and 2 both redirect to
page 3's title `D` and page 3 is already part of the primary batch: the
recursive content-fetch call is issued for `titles=D|D` (the recorded
target-title list with repeats, not the distinct titles, which would be
`titles=D`), and the returned identifier list is `[1, 2, 3, 3]` — a
concatenation with a duplicate, not a union. -/
theorem update_pages_repeats_and_duplicates :
    (update_pages c4Transport 10 ({} : Session) (some [1, 2, 3]) none true).toOption.map
        (fun r => (r.1, r.2.2))
      = some ([1, 2, 3, 3], [("pageids", "1|2|3"), ("titles", "D|D")]) ∧
    ¬ ([1, 2, 3, 3] : List Nat).Nodup ∧
    ("titles", "D") ∉ [("pageids", "1|2|3"), ("titles", "D|D")] := by
  refine ⟨rfl, by decide, by decide⟩

/-- C4 (amended): in `update_pages`, when `follow_redirects` is set and
the primary batches record at least one pending redirect, the operation
recursively fetches the redirect-target titles as recorded (in order,
with repeats — not deduplicated) in a fresh content-fetch call with
`follow_redirects` again enabled, then runs the linking pass over the
source identifiers that produced the pending redirects, and the
recursive call's identifiers are appended (list concatenation, possibly
with duplicates — not a union) to the returned identifier list. -/
theorem update_pages_redirect_phase (T : Transport) (fuel : Nat) (s : Session)
    (ids : Option (List Nat)) (titles : Option (List String)) (items : List String)
    (dl : List Nat) (rds : List (Nat × String)) (s1 : Session)
    (log1 : List (String × String))
    (h1 : pyOrItems ids titles = .ok items)
    (h2 : updatePagesBatches T (if ids.isSome then "pageids" else "titles") items s
        = .ok (dl, rds, s1, log1))
    (h3 : rds ≠ []) :
    update_pages T (fuel + 1) s ids titles true
      = (match update_pages T fuel s1 none (some (rds.map (fun r => r.2))) true with
         | .error e => .error e
         | .ok (dl2, s2, log2) =>
             match link_redirects s2 (rds.map (fun r => r.1)) with
             | .error e => .error e
             | .ok s3 => .ok (dl ++ dl2, s3, log1 ++ log2)) := by
  conv_lhs => rw [update_pages]
  simp only [h1, h2]
  simp only [true_and]
  rw [if_pos h3]

theorem totalItems_cons (r : ApiResponse α) (rest : List (ApiResponse α)) :
    totalItems (r :: rest) = r.items.length + totalItems rest := by
  simp [totalItems]

theorem continuedResponse_cons_ok (m received : Nat) (ri : List α) (rc : Option Params)
    (rest : List (ApiResponse α)) (params : Params) :
    continuedResponse (some m) (⟨none, ri, rc⟩ :: rest) params received =
      if received + ri.length ≤ m then
        match rc with
        | none => ⟨ri, none, 1, params, [params], rest⟩
        | some cp =>
            let out := continuedResponse (some m) rest (dictUpdate params cp)
              (received + ri.length)
            ⟨ri ++ out.yielded, out.err, 1 + out.requests, out.params,
              params :: out.log, out.rest⟩
      else ⟨ri.take (m - received), none, 1, params, [params], rest⟩ := rfl

/-- C1 (amended): for every well-formed paged remote sequence and cap
`m`, the driver yields exactly `min (m - received) (total items)` items
and never errors; it issues at most one request more than the number of
pages needed to reach the cap (the extra request occurs only when the
cap is hit exactly at a page boundary with a continuation present), and
never more requests than there are pages.  In particular a three-page
sequence with `max_results=2` yields exactly 2 items in at most 3
requests — at most 2 when the cap is reached strictly mid-page. -/
theorem continued_response_cap (rs : List (ApiResponse α)) (params : Params)
    (m received : Nat) (h : ChainOk rs) :
    (continuedResponse (some m) rs params received).yielded.length
        = min (m - received) (totalItems rs) ∧
    (continuedResponse (some m) rs params received).requests
        ≤ min (pagesToReach (m - received) rs + 1) rs.length ∧
    (continuedResponse (some m) rs params received).err = none := by
  induction rs generalizing params received with
  | nil => exact absurd h (fun hf => hf)
  | cons r rest ih =>
      obtain ⟨re, ri, rc⟩ := r
      have hlen1 : 1 ≤ ri.length := by
        cases rest with
        | nil =>
            obtain ⟨-, hi, -⟩ := h
            exact List.length_pos.mpr hi
        | cons r2 t =>
            obtain ⟨-, hi, -, -⟩ := h
            exact List.length_pos.mpr hi
      have herr : re = none := by
        cases rest with
        | nil => exact h.1
        | cons r2 t => exact h.1
      subst herr
      rw [continuedResponse_cons_ok]
      by_cases hle : received + ri.length ≤ m
      · rw [if_pos hle]
        cases rest with
        | nil =>
            obtain ⟨-, -, hcont⟩ := h
            subst hcont
            refine ⟨?_, ?_, rfl⟩
            · show ri.length = _
              rw [totalItems_cons]
              simp only [totalItems, List.map_nil, List.sum_nil, List.length_nil]
              omega
            · show 1 ≤ _
              simp only [List.length_cons, List.length_nil]
              omega
        | cons r2 t =>
            obtain ⟨-, -, hcont, hchain⟩ := h
            obtain ⟨cp, hcp⟩ := Option.isSome_iff_exists.mp hcont
            subst hcp
            obtain ⟨ih1, ih2, ih3⟩ := ih (dictUpdate params cp) (received + ri.length) hchain
            refine ⟨?_, ?_, ih3⟩
            · show (ri ++ _).length = _
              rw [List.length_append, totalItems_cons, ih1]
              dsimp only
              omega
            · show 1 + _ ≤ _
              have hpt : pagesToReach (m - received) (⟨none, ri, some cp⟩ :: r2 :: t)
                  = if m - received = 0 then 0
                    else if m - received ≤ ri.length then 1
                    else 1 + pagesToReach (m - received - ri.length) (r2 :: t) := rfl
              have hlen2 : 1 ≤ (r2 :: t).length := by simp
              rw [hpt]
              by_cases hz : m - received = 0
              · exact absurd hz (by omega)
              · rw [if_neg hz]
                by_cases hb : m - received ≤ ri.length
                · have hz2 : m - (received + ri.length) = 0 := by omega
                  rw [hz2] at ih2
                  have hpt0 : pagesToReach 0 (r2 :: t) = 0 := by
                    show (if (0 : Nat) = 0 then 0 else _) = 0
                    simp
                  rw [hpt0] at ih2
                  rw [if_pos hb]
                  simp only [List.length_cons] at *
                  omega
                · have hsame : pagesToReach (m - (received + ri.length)) (r2 :: t)
                      = pagesToReach (m - received - ri.length) (r2 :: t) := by
                    have harith : m - (received + ri.length) = m - received - ri.length := by
                      omega
                    rw [harith]
                  rw [hsame] at ih2
                  rw [if_neg hb]
                  simp only [List.length_cons] at *
                  omega
      · rw [if_neg hle]
        refine ⟨?_, ?_, rfl⟩
        · show (ri.take _).length = _
          rw [List.length_take, totalItems_cons]
          dsimp only
          omega
        · show 1 ≤ _
          simp only [List.length_cons]
          omega

/-- Closed instance for `continued_response_cap`: a one-page sequence of
three items with `max_results=2` satisfies the hypotheses and the
conclusion. -/
theorem continued_response_cap_instance :
    ChainOk ([⟨none, [1, 2, 3], none⟩] : List (ApiResponse Nat)) ∧
    ((continuedResponse (some 2) ([⟨none, [1, 2, 3], none⟩] : List (ApiResponse Nat)) [] 0).yielded.length
        = min (2 - 0) (totalItems ([⟨none, [1, 2, 3], none⟩] : List (ApiResponse Nat))) ∧
     (continuedResponse (some 2) ([⟨none, [1, 2, 3], none⟩] : List (ApiResponse Nat)) [] 0).requests
        ≤ min (pagesToReach (2 - 0) ([⟨none, [1, 2, 3], none⟩] : List (ApiResponse Nat)) + 1)
            ([⟨none, [1, 2, 3], none⟩] : List (ApiResponse Nat)).length ∧
     (continuedResponse (some 2) ([⟨none, [1, 2, 3], none⟩] : List (ApiResponse Nat)) [] 0).err
        = none) :=
  ⟨by decide, continued_response_cap _ [] 2 0 (by decide)⟩

/-- Closed instance for `update_pages_redirect_phase`: the concrete
transport of the counterexample satisfies its hypotheses, and the
redirect phase recurses on the recorded target titles `D, D` with the
results concatenated. -/
theorem update_pages_redirect_phase_instance :
    (pyOrItems (some [1, 2, 3]) none = .ok ["1", "2", "3"] ∧
     updatePagesBatches c4Transport
         (if (some [1, 2, 3] : Option (List Nat)).isSome then "pageids" else "titles")
         ["1", "2", "3"] ({} : Session)
       = .ok ([1, 2, 3], [(1, "D"), (2, "D")], c4S1, [("pageids", "1|2|3")]) ∧
     ([(1, "D"), (2, "D")] : List (Nat × String)) ≠ []) ∧
    update_pages c4Transport (9 + 1) ({} : Session) (some [1, 2, 3]) none true
      = (match update_pages c4Transport 9 c4S1 none
            (some (([(1, "D"), (2, "D")] : List (Nat × String)).map (fun r => r.2))) true with
         | .error e => .error e
         | .ok (dl2, s2, log2) =>
             match link_redirects s2
                 (([(1, "D"), (2, "D")] : List (Nat × String)).map (fun r => r.1)) with
             | .error e => .error e
             | .ok s3 => .ok ([1, 2, 3] ++ dl2, s3, [("pageids", "1|2|3")] ++ log2)) :=
  ⟨⟨rfl, rfl, by decide⟩,
   update_pages_redirect_phase c4Transport 9 ({} : Session) (some [1, 2, 3]) none
     ["1", "2", "3"] [1, 2, 3] [(1, "D"), (2, "D")] c4S1 [("pageids", "1|2|3")]
     rfl rfl (by decide)⟩

/-! ### Occurrence toolkit for the template scanner -/

theorem pair_prefix_iff (x y : Char) (l : List Char) :
    [x, y].isPrefixOf l = true ↔ ∃ rest, l = x :: y :: rest := by
  match l with
  | [] => simp [List.isPrefixOf]
  | [a] => simp [List.isPrefixOf]
  | a :: b :: t =>
      simp only [List.isPrefixOf, Bool.and_eq_true, beq_iff_eq, List.cons.injEq]
      constructor
      · rintro ⟨h1, h2, -⟩
        exact ⟨t, h1.symm, h2.symm, rfl⟩
      · rintro ⟨rest, h1, h2, h3⟩
        exact ⟨h1.symm, h2.symm, trivial⟩

theorem firstOcc_some_prefix (nd l : List Char) (i : Nat) (h : firstOcc nd l = some i) :
    nd.isPrefixOf (l.drop i) = true := by
  induction l generalizing i with
  | nil => simp [firstOcc] at h
  | cons a t ih =>
      unfold firstOcc at h
      by_cases h0 : nd.isPrefixOf (a :: t) = true
      · rw [if_pos h0] at h
        cases h
        simpa using h0
      · rw [if_neg h0] at h
        obtain ⟨j, hj, rfl⟩ := Option.map_eq_some'.mp h
        simpa using ih j hj

theorem firstOcc_prefix_none (nd l : List Char) (h : firstOcc nd l = none) (hnd : nd ≠ []) :
    ∀ j, nd.isPrefixOf (l.drop j) = false := by
  induction l with
  | nil =>
      intro j
      match nd, hnd with
      | a :: as, _ => simp [List.isPrefixOf]
  | cons a t ih =>
      intro j
      unfold firstOcc at h
      by_cases h0 : nd.isPrefixOf (a :: t) = true
      · rw [if_pos h0] at h
        cases h
      · rw [if_neg h0] at h
        have hrest : firstOcc nd t = none := by
          cases hf : firstOcc nd t with
          | none => rfl
          | some v => rw [hf] at h; simp at h
        match j with
        | 0 => simpa using Bool.eq_false_iff.mpr h0
        | j + 1 => simpa using ih hrest j

theorem firstOcc_isSome_of_prefix (nd l : List Char) (j : Nat)
    (h : nd.isPrefixOf (l.drop j) = true) (hnd : nd ≠ []) : (firstOcc nd l).isSome := by
  cases hf : firstOcc nd l with
  | some v => rfl
  | none => rw [firstOcc_prefix_none nd l hf hnd j] at h; cases h

theorem findFrom_some_facts (c nd : List Char) (s i : Nat) (h : findFrom c nd s = some i) :
    s ≤ i ∧ nd.isPrefixOf (c.drop i) = true := by
  unfold findFrom at h
  obtain ⟨j, hj, rfl⟩ := Option.map_eq_some'.mp h
  refine ⟨Nat.le_add_left s j, ?_⟩
  have := firstOcc_some_prefix nd (c.drop s) j hj
  rwa [List.drop_drop, Nat.add_comm s j] at this

theorem findFrom_prefix_none (c nd : List Char) (s : Nat) (h : findFrom c nd s = none)
    (hnd : nd ≠ []) : ∀ j, s ≤ j → nd.isPrefixOf (c.drop j) = false := by
  intro j hsj
  unfold findFrom at h
  have hfo : firstOcc nd (c.drop s) = none := by
    cases hf : firstOcc nd (c.drop s) with
    | none => rfl
    | some v => rw [hf] at h; simp at h
  have := firstOcc_prefix_none nd (c.drop s) hfo hnd (j - s)
  rwa [List.drop_drop, Nat.add_sub_cancel' hsj] at this

theorem findFrom_isSome_of_prefix (c nd : List Char) (s j : Nat) (hsj : s ≤ j)
    (h : nd.isPrefixOf (c.drop j) = true) (hnd : nd ≠ []) : (findFrom c nd s).isSome := by
  cases hf : findFrom c nd s with
  | some v => rfl
  | none => rw [findFrom_prefix_none c nd s hf hnd j hsj] at h; cases h

theorem pair_occurrence_bound (c : List Char) (x y : Char) (s i : Nat)
    (h : findFrom c [x, y] s = some i) : i + 2 ≤ c.length := by
  obtain ⟨-, hpre⟩ := findFrom_some_facts c [x, y] s i h
  obtain ⟨rest, hrest⟩ := (pair_prefix_iff x y _).mp hpre
  have hlen := congrArg List.length hrest
  simp only [List.length_drop, List.length_cons] at hlen
  omega

theorem removeT_nil (f : Nat) : removeT f [] = [] := by
  cases f <;> rfl

theorem removeT_succ (f : Nat) (c : List Char) :
    removeT (f + 1) c =
      match findFrom c openB 0 with
      | none => c
      | some start =>
          match findFrom c closeB (start + 2) with
          | none => c
          | some stop =>
              match findFrom c openB (start + 2) with
              | some next =>
                  if next < stop then
                    removeT f (c.take next ++ removeT f ((c.drop next).take (stop + 2 - next))
                      ++ c.drop (stop + 2))
                  else removeT f (c.take start ++ c.drop (stop + 2))
              | none => removeT f (c.take start ++ c.drop (stop + 2)) := rfl

theorem obc_ne_cbc : obc ≠ cbc := by decide

theorem removeT_length_le : ∀ (f : Nat) (c : List Char), (removeT f c).length ≤ c.length := by
  intro f
  induction f with
  | zero => intro c; exact le_refl _
  | succ g ih =>
      intro c
      rw [removeT_succ]
      cases hstart : findFrom c openB 0 with
      | none => exact Nat.le_refl _
      | some start =>
          dsimp only
          cases hstop : findFrom c closeB (start + 2) with
          | none => exact Nat.le_refl _
          | some stop =>
              dsimp only
              have hb2 := pair_occurrence_bound c cbc cbc (start + 2) stop hstop
              have hs2 := (findFrom_some_facts c closeB (start + 2) stop hstop).1
              cases hnext : findFrom c openB (start + 2) with
              | some next =>
                  dsimp only
                  by_cases hlt : next < stop
                  · rw [if_pos hlt]
                    refine le_trans (ih _) ?_
                    have hsl := ih ((c.drop next).take (stop + 2 - next))
                    simp only [List.length_append, List.length_take, List.length_drop] at *
                    omega
                  · rw [if_neg hlt]
                    refine le_trans (ih _) ?_
                    simp only [List.length_append, List.length_take, List.length_drop]
                    omega
              | none =>
                  dsimp only
                  refine le_trans (ih _) ?_
                  simp only [List.length_append, List.length_take, List.length_drop]
                  omega

theorem nested_branch_facts (c : List Char) (start stop next : Nat)
    (hstop : findFrom c closeB (start + 2) = some stop)
    (hnext : findFrom c openB (start + 2) = some next)
    (hlt : next < stop) :
    openB.isPrefixOf ((c.drop next).take (stop + 2 - next)) = true ∧
    (findFrom ((c.drop next).take (stop + 2 - next)) closeB 2).isSome = true ∧
    ((c.drop next).take (stop + 2 - next)).length = stop + 2 - next ∧
    next + 2 ≤ stop ∧ stop + 2 ≤ c.length ∧ 2 ≤ next := by
  obtain ⟨hnge, hnpre⟩ := findFrom_some_facts c openB (start + 2) next hnext
  obtain ⟨hsge, hspre⟩ := findFrom_some_facts c closeB (start + 2) stop hstop
  have hsb := pair_occurrence_bound c cbc cbc (start + 2) stop hstop
  obtain ⟨rN, hrN⟩ := (pair_prefix_iff obc obc (c.drop next)).mp hnpre
  obtain ⟨rS, hrS⟩ := (pair_prefix_iff cbc cbc (c.drop stop)).mp hspre
  have hn2 : 2 ≤ next := le_trans (by omega) hnge
  have hstopnext : next + 2 ≤ stop := by
    rcases Nat.lt_or_ge stop (next + 2) with hcase | hcase
    · exfalso
      have hne1 : stop = next + 1 := by omega
      have hdd : c.drop stop = obc :: rN := by
        rw [hne1, show next + 1 = next + 1 from rfl]
        have : c.drop (next + 1) = (c.drop next).drop 1 := by
          rw [List.drop_drop]
        rw [this, hrN]
        rfl
      rw [hdd] at hrS
      exact obc_ne_cbc (List.head_eq_of_cons_eq hrS)
    · exact hcase
  have hslice_eq : (c.drop next).take (stop + 2 - next)
      = obc :: obc :: (rN.take (stop - next)) := by
    rw [hrN, show stop + 2 - next = (stop - next) + 2 by omega]
    rfl
  refine ⟨?_, ?_, ?_, hstopnext, hsb, hn2⟩
  · rw [hslice_eq]
    simp [openB, List.isPrefixOf]
  · have hdropslice : ((c.drop next).take (stop + 2 - next)).drop (stop - next)
        = (c.drop stop).take 2 := by
      rw [List.drop_take, List.drop_drop, show next + (stop - next) = stop by omega,
        show stop + 2 - next - (stop - next) = 2 by omega]
    have hpre2 : closeB.isPrefixOf (((c.drop next).take (stop + 2 - next)).drop (stop - next))
        = true := by
      rw [hdropslice, hrS]
      simp [closeB, List.isPrefixOf]
    exact findFrom_isSome_of_prefix _ closeB 2 (stop - next) (by omega) hpre2 (by simp [closeB])
  · rw [List.length_take, List.length_drop]
    omega

theorem removeT_agree_shrink : ∀ n : Nat,
    (∀ (c : List Char) (f1 f2 : Nat), c.length ≤ n → c.length ≤ f1 → c.length ≤ f2 →
      removeT f1 c = removeT f2 c) ∧
    (∀ (c : List Char) (f : Nat), c.length ≤ n → c.length ≤ f →
      openB.isPrefixOf c = true → (findFrom c closeB 2).isSome = true →
      (removeT f c).length < c.length) := by
  intro n
  induction n using Nat.strong_induction_on with
  | _ n ih =>
  constructor
  · intro c f1 f2 hn h1 h2
    rcases Nat.eq_zero_or_pos c.length with hz | hpos
    · rw [List.eq_nil_of_length_eq_zero hz, removeT_nil, removeT_nil]
    match f1, f2 with
    | 0, _ => omega
    | _, 0 => omega
    | g1 + 1, g2 + 1 =>
    rw [removeT_succ g1 c, removeT_succ g2 c]
    cases hstart : findFrom c openB 0 with
    | none => rfl
    | some start =>
        dsimp only
        cases hstop : findFrom c closeB (start + 2) with
        | none => rfl
        | some stop =>
            dsimp only
            have hb2 := pair_occurrence_bound c cbc cbc (start + 2) stop hstop
            have hs2 := (findFrom_some_facts c closeB (start + 2) stop hstop).1
            have hflat : removeT g1 (c.take start ++ c.drop (stop + 2))
                = removeT g2 (c.take start ++ c.drop (stop + 2)) := by
              apply (ih (n - 1) (by omega)).1
              all_goals
                simp only [List.length_append, List.length_take, List.length_drop]
                omega
            cases hnext : findFrom c openB (start + 2) with
            | some next =>
                dsimp only
                by_cases hlt : next < stop
                · rw [if_pos hlt, if_pos hlt]
                  obtain ⟨hopre, hocl, hslen, hn2s, hsb, hn2⟩ :=
                    nested_branch_facts c start stop next hstop hnext hlt
                  have hslice_small : ((c.drop next).take (stop + 2 - next)).length ≤ n - 1 := by
                    omega
                  have hagree : removeT g1 ((c.drop next).take (stop + 2 - next))
                      = removeT g2 ((c.drop next).take (stop + 2 - next)) := by
                    apply (ih (n - 1) (by omega)).1 _ g1 g2 hslice_small <;> omega
                  have hshrink : (removeT g2 ((c.drop next).take (stop + 2 - next))).length
                      < ((c.drop next).take (stop + 2 - next)).length := by
                    apply (ih (n - 1) (by omega)).2 _ g2 hslice_small (by omega) hopre hocl
                  rw [hagree]
                  apply (ih (n - 1) (by omega)).1
                  all_goals
                    simp only [List.length_append, List.length_take, List.length_drop]
                    omega
                · rw [if_neg hlt, if_neg hlt]
                  exact hflat
            | none => exact hflat
  · intro c f hn hf hpre hcl
    obtain ⟨r, hr⟩ := (pair_prefix_iff obc obc c).mp hpre
    have hlen2 : 2 ≤ c.length := by rw [hr]; simp
    match f with
    | 0 => omega
    | g + 1 =>
    rw [removeT_succ g c]
    have hstart : findFrom c openB 0 = some 0 := by
      unfold findFrom
      rw [List.drop_zero]
      rw [hr]
      unfold firstOcc
      rw [if_pos (by rw [← hr]; exact hpre)]
      rfl
    rw [hstart]
    dsimp only
    obtain ⟨stop, hstop⟩ := Option.isSome_iff_exists.mp hcl
    have hstop02 : findFrom c closeB (0 + 2) = some stop := by
      rw [Nat.zero_add]; exact hstop
    rw [hstop02]
    dsimp only
    have hb2 := pair_occurrence_bound c cbc cbc 2 stop hstop
    have hs2 := (findFrom_some_facts c closeB 2 stop hstop).1
    cases hnext : findFrom c openB (0 + 2) with
    | some next =>
        dsimp only
        by_cases hlt : next < stop
        · rw [if_pos hlt]
          have hnext2 : findFrom c openB (0 + 2) = some next := hnext
          rw [Nat.zero_add] at hnext2
          obtain ⟨hopre, hocl, hslen, hn2s, hsb, hn2⟩ :=
            nested_branch_facts c 0 stop next (by rw [Nat.zero_add] at hstop02 ⊢; exact hstop02)
              hnext2 hlt
          have hshrink : (removeT g ((c.drop next).take (stop + 2 - next))).length
              < ((c.drop next).take (stop + 2 - next)).length := by
            apply (ih (n - 1) (by omega)).2 _ g (by omega) (by omega) hopre hocl
          refine lt_of_le_of_lt (removeT_length_le g _) ?_
          simp only [List.length_append, List.length_take, List.length_drop] at *
          omega
        · rw [if_neg hlt]
          refine lt_of_le_of_lt (removeT_length_le g _) ?_
          simp only [List.length_append, List.length_take, List.length_drop]
          omega
    | none =>
        dsimp only
        refine lt_of_le_of_lt (removeT_length_le g _) ?_
        simp only [List.length_append, List.length_take, List.length_drop]
        omega

/-- More fuel than the content length never changes the result of the
template scanner: the Python `while True` loop of `_remove_templates`
terminates within `content.length` iterations. -/
theorem remove_templates_stable (c : List Char) (f : Nat) (h : c.length ≤ f) :
    removeT f c = remove_templates c :=
  (removeT_agree_shrink c.length).1 c f c.length (Nat.le_refl _) h (Nat.le_refl _)

theorem remove_templates_tail_untouched : ∀ (n : Nat) (c : List Char) (p : Nat),
    c.length ≤ n →
    openB.isPrefixOf (c.drop p) = true →
    findFrom c closeB (p + 2) = none →
    c.drop p <:+ remove_templates c := by
  intro n
  induction n using Nat.strong_induction_on with
  | _ n ih =>
  intro c p hn hp hnc
  obtain ⟨rP, hrP⟩ := (pair_prefix_iff obc obc (c.drop p)).mp hp
  have hplen : p + 2 ≤ c.length := by
    have := congrArg List.length hrP
    simp only [List.length_drop, List.length_cons] at this
    omega
  have hncj := findFrom_prefix_none c closeB (p + 2) hnc (by simp [closeB])
  obtain ⟨g, hg⟩ : ∃ g, c.length = g + 1 := ⟨c.length - 1, by omega⟩
  unfold remove_templates
  rw [hg, removeT_succ g c]
  cases hstart : findFrom c openB 0 with
  | none =>
      rw [findFrom_prefix_none c openB 0 hstart (by simp [openB]) p (Nat.zero_le p)] at hp
      cases hp
  | some start =>
      dsimp only
      cases hstop : findFrom c closeB (start + 2) with
      | none => exact List.drop_suffix p c
      | some stop =>
          dsimp only
          obtain ⟨hsge, hspre⟩ := findFrom_some_facts c closeB (start + 2) stop hstop
          obtain ⟨rS, hrS⟩ := (pair_prefix_iff cbc cbc (c.drop stop)).mp hspre
          have hsltp : ¬ (p + 2 ≤ stop) := fun hcontra => by
            rw [hncj stop hcontra] at hspre; cases hspre
          have hne0 : stop ≠ p := fun he => by
            rw [he, hrP] at hrS
            exact obc_ne_cbc (List.head_eq_of_cons_eq hrS)
          have hne1 : stop ≠ p + 1 := fun he => by
            have hd : c.drop (p + 1) = obc :: rP := by
              have h1 : (c.drop p).drop 1 = c.drop (p + 1) := by
                rw [List.drop_drop]
              rw [← h1, hrP]
              rfl
            rw [he, hd] at hrS
            exact obc_ne_cbc (List.head_eq_of_cons_eq hrS)
          have hne2 : stop + 1 ≠ p := fun he => by
            have hd : c.drop p = cbc :: rS := by
              have h1 : (c.drop stop).drop 1 = c.drop (stop + 1) := by
                rw [List.drop_drop]
              rw [← he, ← h1, hrS]
              rfl
            rw [hd] at hrP
            exact obc_ne_cbc (List.head_eq_of_cons_eq hrP).symm
          have hsp2 : stop + 2 ≤ p := by omega
          have hfour : start + 2 ≤ stop := hsge
          have hflatGoal : c.drop p <:+ removeT g (c.take start ++ c.drop (stop + 2)) := by
            have hXlen : (c.take start).length = start := by
              simp only [List.length_take]
              omega
            have hClen : (c.take start ++ c.drop (stop + 2)).length
                = start + (c.length - (stop + 2)) := by
              simp only [List.length_append, List.length_take, List.length_drop]
              omega
            have hdropC : (c.take start ++ c.drop (stop + 2)).drop (start + (p - (stop + 2)))
                = c.drop p := by
              rw [show start + (p - (stop + 2)) = (c.take start).length + (p - (stop + 2)) by
                rw [hXlen]]
              rw [List.drop_append, List.drop_drop]
              congr 1
              omega
            have hstab : removeT g (c.take start ++ c.drop (stop + 2))
                = remove_templates (c.take start ++ c.drop (stop + 2)) := by
              apply remove_templates_stable
              omega
            have hnc2 : findFrom (c.take start ++ c.drop (stop + 2)) closeB
                (start + (p - (stop + 2)) + 2) = none := by
              cases hq : findFrom (c.take start ++ c.drop (stop + 2)) closeB
                  (start + (p - (stop + 2)) + 2) with
              | none => rfl
              | some q =>
                  exfalso
                  obtain ⟨hqge, hqpre⟩ := findFrom_some_facts _ closeB _ q hq
                  have hqd : (c.take start ++ c.drop (stop + 2)).drop q
                      = c.drop (p + (q - (start + (p - (stop + 2))))) := by
                    rw [show q = (start + (p - (stop + 2))) + (q - (start + (p - (stop + 2))))
                      by omega]
                    rw [← List.drop_drop, hdropC, List.drop_drop]
                    congr 1
                    omega
                  rw [hqd] at hqpre
                  rw [hncj _ (by omega)] at hqpre
                  cases hqpre
            have hsuf := ih (n - 1) (by omega) (c.take start ++ c.drop (stop + 2))
              (start + (p - (stop + 2))) (by omega) (by rw [hdropC]; exact hp) hnc2
            rw [hstab, ← hdropC]
            exact hsuf
          cases hnext : findFrom c openB (start + 2) with
          | some next =>
              dsimp only
              by_cases hlt : next < stop
              · rw [if_pos hlt]
                obtain ⟨hopre, hocl, hslen, hn2s, hsb, hn2⟩ :=
                  nested_branch_facts c start stop next hstop hnext hlt
                have hshrink : (removeT g ((c.drop next).take (stop + 2 - next))).length
                    < ((c.drop next).take (stop + 2 - next)).length := by
                  apply (removeT_agree_shrink ((c.drop next).take (stop + 2 - next)).length).2
                      _ g (Nat.le_refl _) (by omega) hopre hocl
                have hXlen : (c.take next ++ removeT g ((c.drop next).take (stop + 2 - next))).length
                    = next + (removeT g ((c.drop next).take (stop + 2 - next))).length := by
                  simp only [List.length_append, List.length_take]
                  omega
                have hClen : (c.take next ++ removeT g ((c.drop next).take (stop + 2 - next))
                    ++ c.drop (stop + 2)).length
                    = next + (removeT g ((c.drop next).take (stop + 2 - next))).length
                      + (c.length - (stop + 2)) := by
                  simp only [List.length_append, List.length_take, List.length_drop]
                  omega
                set w := (removeT g ((c.drop next).take (stop + 2 - next))).length with hw
                have hdropC : (c.take next ++ removeT g ((c.drop next).take (stop + 2 - next))
                    ++ c.drop (stop + 2)).drop (next + w + (p - (stop + 2)))
                    = c.drop p := by
                  rw [show next + w + (p - (stop + 2))
                    = (c.take next ++ removeT g ((c.drop next).take (stop + 2 - next))).length
                      + (p - (stop + 2)) by rw [hXlen]]
                  rw [List.drop_append, List.drop_drop]
                  congr 1
                  omega
                have hstab : removeT g (c.take next
                    ++ removeT g ((c.drop next).take (stop + 2 - next)) ++ c.drop (stop + 2))
                    = remove_templates (c.take next
                      ++ removeT g ((c.drop next).take (stop + 2 - next)) ++ c.drop (stop + 2)) := by
                  apply remove_templates_stable
                  omega
                have hnc2 : findFrom (c.take next
                    ++ removeT g ((c.drop next).take (stop + 2 - next)) ++ c.drop (stop + 2))
                    closeB (next + w + (p - (stop + 2)) + 2) = none := by
                  cases hq : findFrom (c.take next
                      ++ removeT g ((c.drop next).take (stop + 2 - next)) ++ c.drop (stop + 2))
                      closeB (next + w + (p - (stop + 2)) + 2) with
                  | none => rfl
                  | some q =>
                      exfalso
                      obtain ⟨hqge, hqpre⟩ := findFrom_some_facts _ closeB _ q hq
                      have hqd : (c.take next
                          ++ removeT g ((c.drop next).take (stop + 2 - next))
                          ++ c.drop (stop + 2)).drop q
                          = c.drop (p + (q - (next + w + (p - (stop + 2))))) := by
                        rw [show q = (next + w + (p - (stop + 2)))
                          + (q - (next + w + (p - (stop + 2)))) by omega]
                        rw [← List.drop_drop, hdropC, List.drop_drop]
                        congr 1
                        omega
                      rw [hqd] at hqpre
                      rw [hncj _ (by omega)] at hqpre
                      cases hqpre
                have hsuf := ih (n - 1) (by omega)
                  (c.take next ++ removeT g ((c.drop next).take (stop + 2 - next))
                    ++ c.drop (stop + 2))
                  (next + w + (p - (stop + 2))) (by omega) (by rw [hdropC]; exact hp) hnc2
                rw [hstab, ← hdropC]
                exact hsuf
              · rw [if_neg hlt]
                exact hflatGoal
          | none =>
              dsimp only
              exact hflatGoal

/-- C5: on any input with an open template marker that has no following
close marker, `remove_templates` terminates — the fuel-indexed scanner is
stable at any fuel at least the content length — and the text from the
unmatched open marker onward is returned untouched, as a suffix of the
result. -/
theorem remove_templates_unterminated (c : List Char) (p : Nat)
    (hp : openB.isPrefixOf (c.drop p) = true)
    (hnc : findFrom c closeB (p + 2) = none) :
    (∀ f, c.length ≤ f → removeT f c = remove_templates c) ∧
    c.drop p <:+ remove_templates c :=
  ⟨fun f hf => remove_templates_stable c f hf,
   remove_templates_tail_untouched c.length c p (Nat.le_refl _) hp hnc⟩

/-- Closed instance for `remove_templates_unterminated`: the text
`ab` + open marker + `cd` (unterminated) is returned whole. -/
theorem remove_templates_unterminated_instance :
    (openB.isPrefixOf (("ab\x7b\x7bcd".data).drop 2) = true ∧
      findFrom "ab\x7b\x7bcd".data closeB (2 + 2) = none) ∧
    ((∀ f, ("ab\x7b\x7bcd".data).length ≤ f →
        removeT f "ab\x7b\x7bcd".data = remove_templates "ab\x7b\x7bcd".data) ∧
      ("ab\x7b\x7bcd".data).drop 2 <:+ remove_templates "ab\x7b\x7bcd".data) :=
  ⟨⟨by decide, by decide⟩,
   remove_templates_unterminated "ab\x7b\x7bcd".data 2 (by decide) (by decide)⟩

/-! ### Balanced-markup machinery -/

theorem not_pair_at_of_not_mem (x y : Char) (l : List Char) (h : x ∉ l) (j : Nat) :
    [x, y].isPrefixOf (l.drop j) = false := by
  cases hp : [x, y].isPrefixOf (l.drop j) with
  | false => rfl
  | true =>
      exfalso
      obtain ⟨r, hr⟩ := (pair_prefix_iff x y _).mp hp
      exact h (List.drop_subset j l (hr ▸ List.mem_cons_self x (y :: r)))

theorem not_pair_at_span (x y : Char) (P xx S : List Char) (hx : x ∉ xx) (j : Nat)
    (h1 : P.length ≤ j) (h2 : j < P.length + xx.length) :
    [x, y].isPrefixOf ((P ++ xx ++ S).drop j) = false := by
  cases hp : [x, y].isPrefixOf ((P ++ xx ++ S).drop j) with
  | false => rfl
  | true =>
      exfalso
      obtain ⟨r, hr⟩ := (pair_prefix_iff x y _).mp hp
      have hhd : ((P ++ xx ++ S).drop j).head? = some x := by rw [hr]; rfl
      have hget : ((P ++ xx ++ S).drop j).head? = (P ++ xx ++ S)[j]? := List.head?_drop _ _
      have hj : (P ++ xx ++ S)[j]? = xx[j - P.length]? := by
        rw [List.append_assoc]
        rw [List.getElem?_append_right (by omega)]
        rw [List.getElem?_append_left (by omega)]
      rw [hget, hj] at hhd
      have hmem : x ∈ xx := by
        have := List.getElem?_eq_some.mp hhd
        obtain ⟨hlt, hval⟩ := this
        exact hval ▸ List.getElem_mem _
      exact hx hmem

theorem firstOcc_eq_some (nd l : List Char) (i : Nat) (hnd : nd ≠ [])
    (hpre : nd.isPrefixOf (l.drop i) = true)
    (hmin : ∀ j, j < i → nd.isPrefixOf (l.drop j) = false) :
    firstOcc nd l = some i := by
  induction l generalizing i with
  | nil =>
      exfalso
      rw [List.drop_nil] at hpre
      match nd, hnd with
      | a :: as, _ => simp [List.isPrefixOf] at hpre
  | cons a t ih =>
      match i with
      | 0 =>
          unfold firstOcc
          rw [if_pos (by simpa using hpre)]
      | i + 1 =>
          unfold firstOcc
          rw [if_neg (by simpa using Bool.eq_false_iff.mp (hmin 0 (Nat.succ_pos i)))]
          rw [ih i (by simpa using hpre) (fun j hj => by simpa using hmin (j + 1) (by omega))]
          rfl

theorem findFrom_eq_some (c nd : List Char) (s i : Nat) (hnd : nd ≠ []) (hsi : s ≤ i)
    (hpre : nd.isPrefixOf (c.drop i) = true)
    (hmin : ∀ j, s ≤ j → j < i → nd.isPrefixOf (c.drop j) = false) :
    findFrom c nd s = some i := by
  unfold findFrom
  rw [firstOcc_eq_some nd (c.drop s) (i - s) hnd
    (by rw [List.drop_drop]; rw [show s + (i - s) = i by omega]; exact hpre)
    (fun j hj => by
      rw [List.drop_drop]
      exact hmin (s + j) (by omega) (by omega))]
  show some (i - s + s) = some i
  rw [show i - s + s = i by omega]

theorem findFrom_eq_none (c nd : List Char) (s : Nat)
    (h : ∀ j, s ≤ j → nd.isPrefixOf (c.drop j) = false) :
    findFrom c nd s = none := by
  cases hf : findFrom c nd s with
  | none => rfl
  | some i =>
      exfalso
      obtain ⟨hge, hpre⟩ := findFrom_some_facts c nd s i hf
      rw [h i hge] at hpre
      cases hpre

theorem chainJoin_cons_of_ne (x : List Char) (xs : List (List Char)) (h : xs ≠ []) :
    chainJoin (x :: xs) = x ++ openB ++ chainJoin xs := by
  match xs, h with
  | y :: t, _ => rfl

theorem cbc_not_mem_chainJoin (xs : List (List Char)) (h : ∀ x ∈ xs, cbc ∉ x) :
    cbc ∉ chainJoin xs := by
  induction xs with
  | nil => simp [chainJoin]
  | cons x t ihx =>
      cases t with
      | nil =>
          show cbc ∉ x
          exact h x (List.mem_cons_self x [])
      | cons y t2 =>
          rw [chainJoin_cons_of_ne x (y :: t2) (by simp)]
          intro hmem
          rcases List.mem_append.mp hmem with hmem2 | hmem2
          · rcases List.mem_append.mp hmem2 with hmem3 | hmem3
            · exact h x (List.mem_cons_self x (y :: t2)) hmem3
            · exact obc_ne_cbc (by simpa [openB] using hmem3 : cbc = obc).symm
          · exact ihx (fun z hz => h z (List.mem_cons_of_mem x hz)) hmem2

theorem cbc_not_mem_openPrefixJoin (ys : List (List Char)) (h : ∀ y ∈ ys, cbc ∉ y) :
    cbc ∉ openPrefixJoin ys := by
  induction ys with
  | nil => simp [openPrefixJoin]
  | cons y t ihy =>
      show cbc ∉ openB ++ y ++ openPrefixJoin t
      intro hmem
      rcases List.mem_append.mp hmem with hmem2 | hmem2
      · rcases List.mem_append.mp hmem2 with hmem3 | hmem3
        · exact obc_ne_cbc (by simpa [openB] using hmem3 : cbc = obc).symm
        · exact h y (List.mem_cons_self y t) hmem3
      · exact ihy (fun z hz => h z (List.mem_cons_of_mem y hz)) hmem2

theorem balancedAux_two_open (l : List Char) (d : Nat) :
    balancedAux (obc :: obc :: l) d = balancedAux l (d + 1) := by
  rfl

theorem balancedAux_bracefree_prepend (A : List Char) (hA : braceFree A) :
    ∀ (B : List Char) (d : Nat), balancedAux (A ++ B) d = balancedAux B d := by
  induction A with
  | nil => intro B d; rfl
  | cons a A2 ihA =>
      intro B d
      have ha : a ≠ obc ∧ a ≠ cbc := by
        constructor
        · intro he; exact hA.1 (he ▸ List.mem_cons_self a A2)
        · intro he; exact hA.2 (he ▸ List.mem_cons_self a A2)
      have hA2 : braceFree A2 := by
        constructor
        · intro hm; exact hA.1 (List.mem_cons_of_mem a hm)
        · intro hm; exact hA.2 (List.mem_cons_of_mem a hm)
      show balancedAux (a :: (A2 ++ B)) d = balancedAux B d
      cases hAB : A2 ++ B with
      | nil =>
          have hB : B = [] := by
            have := congrArg List.length hAB
            simp only [List.length_append, List.length_nil] at this
            exact List.eq_nil_of_length_eq_zero (by omega)
          subst hB
          show balancedAux [a] d = balancedAux [] d
          unfold balancedAux
          simp [ha.1, ha.2]
      | cons b t =>
          have step : balancedAux (a :: b :: t) d = balancedAux (b :: t) d := by
            show (if (a = obc && b = obc) = true then balancedAux t (d + 1)
              else if (a = cbc && b = cbc) = true then decide (0 < d) && balancedAux t (d - 1)
              else (a != obc) && (a != cbc) && balancedAux (b :: t) d) = balancedAux (b :: t) d
            rw [if_neg (by simp [ha.1]), if_neg (by simp [ha.2]),
              show (a != obc) = true by simp [ha.1], show (a != cbc) = true by simp [ha.2]]
            simp
          rw [step, ← hAB, ihA hA2 B d]

theorem balancedAux_openPrefixJoin (ys : List (List Char))
    (hys : ∀ y ∈ ys, braceFree y) (B : List Char) (d : Nat) :
    balancedAux (openPrefixJoin ys ++ B) d = balancedAux B (d + ys.length) := by
  induction ys generalizing d with
  | nil => simp [openPrefixJoin]
  | cons y t ihy =>
      have hshape : openPrefixJoin (y :: t) ++ B = obc :: obc :: (y ++ (openPrefixJoin t ++ B)) := by
        show (openB ++ y ++ openPrefixJoin t) ++ B = _
        simp [openB, List.append_assoc]
      rw [hshape, balancedAux_two_open,
        balancedAux_bracefree_prepend y (hys y (List.mem_cons_self y t)),
        ihy (fun z hz => hys z (List.mem_cons_of_mem y hz))]
      congr 1
      simp only [List.length_cons]
      omega

theorem balanced_chain_split : ∀ (m : Nat) (rest : List Char) (n : Nat), rest.length ≤ m →
    balancedAux rest (n + 1) = true →
    ∃ (xs : List (List Char)) (B : List Char), xs ≠ [] ∧ (∀ x ∈ xs, braceFree x) ∧
      rest = chainJoin xs ++ closeB ++ B ∧ balancedAux B (n + xs.length - 1) = true := by
  intro m
  induction m using Nat.strong_induction_on with
  | _ m ih =>
  intro rest n hm hb
  match rest with
  | [] => simp [balancedAux] at hb
  | [c1] =>
      exfalso
      unfold balancedAux at hb
      simp only [Bool.and_eq_true, bne_iff_ne, ne_eq, beq_iff_eq] at hb
      omega
  | c1 :: c2 :: t =>
      unfold balancedAux at hb
      by_cases h1 : (c1 = obc && c2 = obc) = true
      · rw [if_pos h1] at hb
        simp only [Bool.and_eq_true, decide_eq_true_eq] at h1
        obtain ⟨xs, B, hne, hbf, heq, hdep⟩ := ih (m - 1) (by
            simp only [List.length_cons] at hm; omega) t (n + 1) (by
            simp only [List.length_cons] at hm; omega) hb
        refine ⟨[] :: xs, B, by simp, ?_, ?_, ?_⟩
        · intro x hx
          rcases List.mem_cons.mp hx with h | h
          · subst h; exact ⟨by simp, by simp⟩
          · exact hbf x h
        · rw [chainJoin_cons_of_ne [] xs hne]
          simp [openB, h1.1, h1.2, heq]
        · rw [show n + ([] :: xs).length - 1 = (n + 1) + xs.length - 1 by
            simp only [List.length_cons]; omega]
          exact hdep
      · rw [if_neg h1] at hb
        by_cases h2 : (c1 = cbc && c2 = cbc) = true
        · rw [if_pos h2] at hb
          simp only [Bool.and_eq_true, decide_eq_true_eq] at h2
          simp only [Bool.and_eq_true, decide_eq_true_eq] at hb
          refine ⟨[[]], t, by simp, by simp [braceFree], ?_, ?_⟩
          · simp [chainJoin, closeB, h2.1, h2.2]
          · simpa using hb.2
        · rw [if_neg h2] at hb
          simp only [Bool.and_eq_true, bne_iff_ne, ne_eq] at hb
          have hna := hb.1.1
          have hnb := hb.1.2
          have hb2 := hb.2
          obtain ⟨xs, B, hne, hbf, heq, hdep⟩ := ih (m - 1) (by
              simp only [List.length_cons] at hm; omega) (c2 :: t) n (by
              simp only [List.length_cons] at hm ⊢; omega) hb2
          match xs, hne with
          | x0 :: xs2, _ =>
          refine ⟨(c1 :: x0) :: xs2, B, by simp, ?_, ?_, ?_⟩
          · intro x hx
            rcases List.mem_cons.mp hx with h | h
            · subst h
              have hx0 := hbf x0 (List.mem_cons_self x0 xs2)
              constructor
              · intro hm2
                rcases List.mem_cons.mp hm2 with he | hm3
                · exact hna he.symm
                · exact hx0.1 hm3
              · intro hm2
                rcases List.mem_cons.mp hm2 with he | hm3
                · exact hnb he.symm
                · exact hx0.2 hm3
            · exact hbf x (List.mem_cons_of_mem x0 h)
          · have hcj : chainJoin ((c1 :: x0) :: xs2) = c1 :: chainJoin (x0 :: xs2) := by
              cases xs2 with
              | nil => rfl
              | cons y t2 =>
                  rw [chainJoin_cons_of_ne (c1 :: x0) (y :: t2) (by simp),
                    chainJoin_cons_of_ne x0 (y :: t2) (by simp)]
                  rfl
            rw [hcj]
            show c1 :: (c2 :: t) = _
            rw [heq]
            rfl
          · simpa using hdep

theorem balanced_top_split : ∀ (m : Nat) (c : List Char), c.length ≤ m →
    balancedAux c 0 = true →
    braceFree c ∨ ∃ A rest, braceFree A ∧ c = A ++ openB ++ rest ∧
      balancedAux rest 1 = true := by
  intro m
  induction m using Nat.strong_induction_on with
  | _ m ih =>
  intro c hm hb
  match c with
  | [] => exact Or.inl ⟨by simp, by simp⟩
  | [c1] =>
      unfold balancedAux at hb
      simp only [Bool.and_eq_true, bne_iff_ne, ne_eq] at hb
      refine Or.inl ⟨?_, ?_⟩
      · intro hm2
        exact hb.1.1 (List.mem_singleton.mp hm2).symm
      · intro hm2
        exact hb.1.2 (List.mem_singleton.mp hm2).symm
  | c1 :: c2 :: t =>
      unfold balancedAux at hb
      by_cases h1 : (c1 = obc && c2 = obc) = true
      · rw [if_pos h1] at hb
        simp only [Bool.and_eq_true, decide_eq_true_eq] at h1
        exact Or.inr ⟨[], t, ⟨by simp, by simp⟩, by simp [openB, h1.1, h1.2], hb⟩
      · rw [if_neg h1] at hb
        by_cases h2 : (c1 = cbc && c2 = cbc) = true
        · rw [if_pos h2] at hb
          simp at hb
        · rw [if_neg h2] at hb
          simp only [Bool.and_eq_true, bne_iff_ne, ne_eq] at hb
          have hna := hb.1.1
          have hnb := hb.1.2
          have hb2 := hb.2
          rcases ih (m - 1) (by simp only [List.length_cons] at hm; omega) (c2 :: t)
              (by simp only [List.length_cons] at hm ⊢; omega) hb2 with hfree | ⟨A, rest, hbf, heq, hbal⟩
          · refine Or.inl ⟨?_, ?_⟩
            · intro hm2
              rcases List.mem_cons.mp hm2 with he | hm3
              · exact hna he.symm
              · exact hfree.1 hm3
            · intro hm2
              rcases List.mem_cons.mp hm2 with he | hm3
              · exact hnb he.symm
              · exact hfree.2 hm3
          · refine Or.inr ⟨c1 :: A, rest, ⟨?_, ?_⟩, ?_, hbal⟩
            · intro hm2
              rcases List.mem_cons.mp hm2 with he | hm3
              · exact hna he.symm
              · exact hbf.1 hm3
            · intro hm2
              rcases List.mem_cons.mp hm2 with he | hm3
              · exact hnb he.symm
              · exact hbf.2 hm3
            · rw [show (c1 :: A) ++ openB ++ rest = c1 :: (A ++ openB ++ rest) by simp, ← heq]

theorem findFrom_pair_eq (x y : Char) (c P M S : List Char) (hc : c = P ++ (M ++ S))
    (hM : x ∉ M) (hS : [x, y].isPrefixOf S = true) (s : Nat) (hs : s = P.length) :
    findFrom c [x, y] s = some (P.length + M.length) := by
  subst hc hs
  apply findFrom_eq_some _ _ _ _ (by simp) (Nat.le_add_right _ _)
  · rw [show P.length + M.length = (P ++ M).length by simp, ← List.append_assoc,
      List.drop_left]
    exact hS
  · intro j hj1 hj2
    have := not_pair_at_span x y P M S hM j hj1 (by omega)
    rwa [List.append_assoc] at this

theorem findFrom_none_of_not_mem (c : List Char) (x y : Char) (h : x ∉ c) (s : Nat) :
    findFrom c [x, y] s = none :=
  findFrom_eq_none c [x, y] s (fun j _ => not_pair_at_of_not_mem x y c h j)

theorem findFrom_none_append (c P R : List Char) (x y : Char) (hc : c = P ++ R)
    (hR : x ∉ R) (s : Nat) (hs : P.length ≤ s) : findFrom c [x, y] s = none := by
  subst hc
  apply findFrom_eq_none
  intro j hj
  rw [show j = P.length + (j - P.length) by omega, List.drop_append]
  exact not_pair_at_of_not_mem x y R hR _

theorem openB_prefix_append (R : List Char) : openB.isPrefixOf (openB ++ R) = true := by
  simp [openB, List.isPrefixOf]

theorem closeB_prefix_append (R : List Char) : closeB.isPrefixOf (closeB ++ R) = true := by
  simp [closeB, List.isPrefixOf]

/-- Content without any close-brace character is returned unchanged by
the template scanner. -/
theorem remove_templates_no_close (c : List Char) (h : cbc ∉ c) :
    remove_templates c = c := by
  unfold remove_templates
  match hl : c.length with
  | 0 => rw [List.eq_nil_of_length_eq_zero hl, removeT_nil]
  | g + 1 =>
      rw [removeT_succ]
      cases hstart : findFrom c openB 0 with
      | none => rfl
      | some start =>
          dsimp only
          rw [show findFrom c closeB (start + 2) = none from
            findFrom_none_of_not_mem c cbc cbc h (start + 2)]

/-- The template scanner on one open marker, a chain of brace-free
segments separated by further open markers, and one close marker: the
close consumes the innermost open and its segment; what remains are the
earlier opens with their segments. -/
theorem findFrom_open_eq (c P M S : List Char) (hc : c = P ++ (M ++ S))
    (hM : obc ∉ M) (hS : openB.isPrefixOf S = true) (s : Nat) (hs : s = P.length) :
    findFrom c openB s = some (P.length + M.length) :=
  findFrom_pair_eq obc obc c P M S hc hM hS s hs

theorem findFrom_close_eq (c P M S : List Char) (hc : c = P ++ (M ++ S))
    (hM : cbc ∉ M) (hS : closeB.isPrefixOf S = true) (s : Nat) (hs : s = P.length) :
    findFrom c closeB s = some (P.length + M.length) :=
  findFrom_pair_eq cbc cbc c P M S hc hM hS s hs

theorem findFrom_open_none (c P R : List Char) (hc : c = P ++ R)
    (hR : obc ∉ R) (s : Nat) (hs : P.length ≤ s) : findFrom c openB s = none :=
  findFrom_none_append c P R obc obc hc hR s hs

theorem findFrom_close_none (c : List Char) (h : cbc ∉ c) (s : Nat) :
    findFrom c closeB s = none :=
  findFrom_none_of_not_mem c cbc cbc h s

/-- The template scanner on one open marker, a chain of brace-free
segments separated by further open markers, and one close marker: the
close consumes the innermost open and its segment; what remains are the
earlier opens with their segments. -/
theorem remove_templates_chain : ∀ (xs : List (List Char)), xs ≠ [] →
    (∀ z ∈ xs, braceFree z) →
    remove_templates (openB ++ (chainJoin xs ++ closeB)) = openPrefixJoin xs.dropLast := by
  intro xs
  induction xs with
  | nil => intro h; exact absurd rfl h
  | cons y0 rest ihx =>
      intro _ hbf
      have hy0 := hbf y0 (List.mem_cons_self y0 rest)
      cases rest with
      | nil =>
          unfold remove_templates
          have hslice : openB ++ (chainJoin [y0] ++ closeB) = openB ++ (y0 ++ closeB) := rfl
          rw [hslice]
          rw [show (openB ++ (y0 ++ closeB)).length = (y0.length + 3) + 1 by
            simp only [List.length_append, openB, closeB, List.length_cons, List.length_nil]
            omega]
          rw [removeT_succ]
          rw [findFrom_open_eq _ [] [] (openB ++ (y0 ++ closeB)) (by simp) (by simp)
            (openB_prefix_append _) 0 (by simp)]
          dsimp only
          simp only [List.length_nil, Nat.add_zero, Nat.zero_add]
          rw [findFrom_close_eq _ openB y0 closeB (by simp) hy0.2
            (by exact closeB_prefix_append []) 2 (by simp [openB])]
          dsimp only
          rw [findFrom_open_none _ openB (y0 ++ closeB) rfl
            (by
              intro hm
              rcases List.mem_append.mp hm with h1 | h1
              · exact hy0.1 h1
              · exact obc_ne_cbc (by simpa [closeB] using h1 : obc = cbc))
            2 (by simp [openB])]
          dsimp only
          rw [show (openB ++ (y0 ++ closeB)).take 0 = [] from List.take_zero _]
          rw [List.drop_eq_nil_of_le (by
            simp only [List.length_append, openB, closeB, List.length_cons, List.length_nil]
            omega)]
          rw [List.nil_append, removeT_nil]
          rfl
      | cons y1 t =>
          have hbf1 : ∀ z ∈ (y1 :: t), braceFree z :=
            fun z hz => hbf z (List.mem_cons_of_mem y0 hz)
          have hcj : chainJoin (y0 :: y1 :: t) = y0 ++ openB ++ chainJoin (y1 :: t) :=
            chainJoin_cons_of_ne y0 (y1 :: t) (by simp)
          have hcbcj : cbc ∉ chainJoin (y0 :: y1 :: t) :=
            cbc_not_mem_chainJoin _ (fun z hz => (hbf z hz).2)
          unfold remove_templates
          rw [show (openB ++ (chainJoin (y0 :: y1 :: t) ++ closeB)).length
              = ((chainJoin (y0 :: y1 :: t)).length + 3) + 1 by
            simp only [List.length_append, openB, closeB, List.length_cons, List.length_nil]
            omega]
          rw [removeT_succ]
          set g := (chainJoin (y0 :: y1 :: t)).length + 3 with hgdef
          rw [findFrom_open_eq _ [] []
            (openB ++ (chainJoin (y0 :: y1 :: t) ++ closeB)) (by simp) (by simp)
            (openB_prefix_append _) 0 (by simp)]
          dsimp only
          simp only [List.length_nil, Nat.add_zero, Nat.zero_add]
          rw [findFrom_close_eq _ openB (chainJoin (y0 :: y1 :: t)) closeB (by simp)
            hcbcj (by exact closeB_prefix_append []) 2 (by simp [openB])]
          dsimp only
          rw [findFrom_open_eq _ openB y0
            (openB ++ (chainJoin (y1 :: t) ++ closeB))
            (by rw [hcj]; simp [List.append_assoc]) hy0.1
            (openB_prefix_append _) 2 (by simp [openB])]
          dsimp only
          have hlt : openB.length + y0.length
              < openB.length + (chainJoin (y0 :: y1 :: t)).length := by
            rw [hcj]
            simp only [List.length_append]
            have : 0 < openB.length := by simp [openB]
            omega
          rw [if_pos hlt]
          have hPsplit : openB ++ (chainJoin (y0 :: y1 :: t) ++ closeB)
              = (openB ++ y0) ++ (openB ++ (chainJoin (y1 :: t) ++ closeB)) := by
            rw [hcj]
            simp [List.append_assoc]
          have hdrop : (openB ++ (chainJoin (y0 :: y1 :: t) ++ closeB)).drop
              (openB.length + y0.length)
              = openB ++ (chainJoin (y1 :: t) ++ closeB) := by
            rw [hPsplit, show openB.length + y0.length = (openB ++ y0).length by simp,
              List.drop_left]
          have htakelen : openB.length + (chainJoin (y0 :: y1 :: t)).length + 2
              - (openB.length + y0.length)
              = (openB ++ (chainJoin (y1 :: t) ++ closeB)).length := by
            rw [hcj]
            simp only [List.length_append, openB, closeB, List.length_cons, List.length_nil]
            omega
          have hslice2 : ((openB ++ (chainJoin (y0 :: y1 :: t) ++ closeB)).drop
              (openB.length + y0.length)).take
                (openB.length + (chainJoin (y0 :: y1 :: t)).length + 2
                  - (openB.length + y0.length))
              = openB ++ (chainJoin (y1 :: t) ++ closeB) := by
            rw [hdrop, htakelen, List.take_length]
          rw [hslice2]
          have hinnerlen : (openB ++ (chainJoin (y1 :: t) ++ closeB)).length ≤ g := by
            have h1 := congrArg List.length hPsplit
            rw [hgdef]
            simp only [List.length_append, openB, closeB, List.length_cons,
              List.length_nil] at h1 ⊢
            omega
          rw [remove_templates_stable _ g hinnerlen, ihx (by simp) hbf1]
          have htake : (openB ++ (chainJoin (y0 :: y1 :: t) ++ closeB)).take
              (openB.length + y0.length) = openB ++ y0 := by
            rw [hPsplit, show openB.length + y0.length = (openB ++ y0).length by simp,
              List.take_left]
          rw [htake]
          have hdropend : (openB ++ (chainJoin (y0 :: y1 :: t) ++ closeB)).drop
              (openB.length + (chainJoin (y0 :: y1 :: t)).length + 2) = [] := by
            apply List.drop_eq_nil_of_le
            simp only [List.length_append, openB, closeB, List.length_cons, List.length_nil]
            omega
          rw [hdropend, List.append_nil]
          have hcontent : (openB ++ y0) ++ openPrefixJoin (y1 :: t).dropLast
              = openPrefixJoin ((y0 :: y1 :: t).dropLast) := by
            rw [show (y0 :: y1 :: t).dropLast = y0 :: (y1 :: t).dropLast from rfl]
            show (openB ++ y0) ++ openPrefixJoin (y1 :: t).dropLast
              = openB ++ y0 ++ openPrefixJoin (y1 :: t).dropLast
            rfl
          rw [hcontent]
          have hnoclose : cbc ∉ openPrefixJoin ((y0 :: y1 :: t).dropLast) := by
            apply cbc_not_mem_openPrefixJoin
            intro z hz
            exact (hbf z (List.dropLast_subset _ hz)).2
          have hfin : removeT g (openPrefixJoin ((y0 :: y1 :: t).dropLast))
              = remove_templates (openPrefixJoin ((y0 :: y1 :: t).dropLast)) := by
            apply remove_templates_stable
            have h2 : (openPrefixJoin ((y0 :: y1 :: t).dropLast)).length
                = ((openB ++ y0) ++ openPrefixJoin (y1 :: t).dropLast).length := by
              rw [hcontent]
            have h3 : (openPrefixJoin ((y1 :: t).dropLast)).length
                < (openB ++ (chainJoin (y1 :: t) ++ closeB)).length := by
              rw [← ihx (by simp) hbf1]
              have hclose2 : (findFrom (openB ++ (chainJoin (y1 :: t) ++ closeB)) closeB
                  2).isSome = true := by
                rw [findFrom_close_eq _ openB (chainJoin (y1 :: t)) closeB rfl
                  (cbc_not_mem_chainJoin _ (fun z hz => (hbf1 z hz).2))
                  (by simp [closeB, List.isPrefixOf]) 2 (by simp [openB])]
                rfl
              exact (removeT_agree_shrink
                  (openB ++ (chainJoin (y1 :: t) ++ closeB)).length).2
                (openB ++ (chainJoin (y1 :: t) ++ closeB)) _
                (Nat.le_refl _) (Nat.le_refl _) (openB_prefix_append _) hclose2
            have h1 := congrArg List.length hPsplit
            have h4 := congrArg List.length hcj
            rw [hgdef]
            simp only [List.length_append, openB, closeB, List.length_cons,
              List.length_nil] at h1 h2 h3 h4 ⊢
            omega
          rw [hfin, remove_templates_no_close _ hnoclose]

/-- Content without any open-brace character is returned unchanged by
the template scanner. -/
theorem remove_templates_no_open (c : List Char) (h : obc ∉ c) :
    remove_templates c = c := by
  unfold remove_templates
  match hl : c.length with
  | 0 => rw [List.eq_nil_of_length_eq_zero hl, removeT_nil]
  | g + 1 =>
      rw [removeT_succ]
      rw [findFrom_open_none c [] c (by simp) h 0 (by simp)]

theorem remove_templates_balanced_aux : ∀ (n : Nat) (c : List Char), c.length ≤ n →
    balancedAux c 0 = true → findFrom (remove_templates c) openB 0 = none := by
  intro n
  induction n using Nat.strong_induction_on with
  | _ n ih =>
  intro c hn hb
  rcases balanced_top_split c.length c (Nat.le_refl _) hb with hfree |
    ⟨A, rest, hbfA, hceq, hbal1⟩
  · rw [remove_templates_no_open c hfree.1]
    exact findFrom_open_none c [] c (by simp) hfree.1 0 (by simp)
  · obtain ⟨xs, B, hne, hbfxs, hresteq, hdepB⟩ :=
      balanced_chain_split rest.length rest 0 (Nat.le_refl _) hbal1
    have hc' : c = A ++ (openB ++ (chainJoin xs ++ (closeB ++ B))) := by
      rw [hceq, hresteq]
      simp [List.append_assoc]
    have hcbcj : cbc ∉ chainJoin xs :=
      cbc_not_mem_chainJoin _ (fun z hz => (hbfxs z hz).2)
    have hclen : c.length = A.length + (chainJoin xs).length + B.length + 4 := by
      rw [hc']
      simp only [List.length_append, openB, closeB, List.length_cons, List.length_nil]
      omega
    obtain ⟨g, hg⟩ : ∃ g, c.length = g + 1 := ⟨c.length - 1, by omega⟩
    unfold remove_templates
    rw [hg, removeT_succ]
    rw [findFrom_open_eq c [] A (openB ++ (chainJoin xs ++ (closeB ++ B)))
      (by rw [hc']; rfl) hbfA.1 (openB_prefix_append _) 0 (by simp)]
    dsimp only
    rw [findFrom_close_eq c (A ++ openB) (chainJoin xs) (closeB ++ B)
      (by rw [hc']; simp [List.append_assoc]) hcbcj (closeB_prefix_append B)
      ((([] : List Char).length + A.length) + 2) (by simp [openB])]
    dsimp only
    match xs, hne, hbfxs, hresteq, hdepB with
    | [x0], _, hbfxs, hresteq, hdepB =>
        have hx0 := hbfxs x0 (List.mem_cons_self x0 [])
        have hcj0 : chainJoin [x0] = x0 := rfl
        have hflat : findFrom (removeT g (c.take (([] : List Char).length + A.length)
            ++ c.drop ((A ++ openB).length + (chainJoin [x0]).length + 2))) openB 0
            = none := by
          have htk : c.take (([] : List Char).length + A.length) = A := by
            rw [hc']
            simp only [List.length_nil, Nat.zero_add]
            exact List.take_left A _
          have hdr : c.drop ((A ++ openB).length + (chainJoin [x0]).length + 2) = B := by
            rw [hc', hcj0]
            rw [show (A ++ openB).length + x0.length + 2
              = ((A ++ (openB ++ (x0 ++ closeB)))).length by
                simp only [List.length_append, openB, closeB, List.length_cons,
                  List.length_nil]
                omega]
            rw [show A ++ (openB ++ (x0 ++ (closeB ++ B)))
              = (A ++ (openB ++ (x0 ++ closeB))) ++ B by simp [List.append_assoc]]
            exact List.drop_left _ B
          rw [htk, hdr]
          have hstab : removeT g (A ++ B) = remove_templates (A ++ B) := by
            apply remove_templates_stable
            have : (A ++ B).length = A.length + B.length := by simp
            omega
          rw [hstab]
          apply ih (n - 1) (by omega) (A ++ B) (by simp only [List.length_append]; omega)
          rw [balancedAux_bracefree_prepend A hbfA B 0]
          simpa using hdepB
        cases hnext : findFrom c openB ((([] : List Char).length + A.length) + 2) with
        | none =>
            dsimp only
            exact hflat
        | some next =>
            dsimp only
            have hnlt : ¬ (next < (A ++ openB).length + (chainJoin [x0]).length) := by
              intro hlt
              obtain ⟨hge, hpre⟩ := findFrom_some_facts c openB _ next hnext
              have hspan := not_pair_at_span obc obc (A ++ openB) x0 (closeB ++ B)
                hx0.1 next (by simpa [openB] using hge)
                (by
                  rw [hcj0] at hlt
                  simp only [List.length_append, openB, List.length_cons,
                    List.length_nil] at hlt ⊢
                  omega)
              rw [show (A ++ openB) ++ x0 ++ (closeB ++ B) = c by
                rw [hc', hcj0]; simp [List.append_assoc]] at hspan
              rw [show openB = [obc, obc] from rfl] at hpre
              rw [hspan] at hpre
              exact Bool.false_ne_true hpre
            rw [if_neg hnlt]
            exact hflat
    | x0 :: x1 :: xs2, _, hbfxs, hresteq, hdepB =>
        have hx0 := hbfxs x0 (List.mem_cons_self x0 (x1 :: xs2))
        have hbf1 : ∀ z ∈ (x1 :: xs2), braceFree z :=
          fun z hz => hbfxs z (List.mem_cons_of_mem x0 hz)
        have hcj : chainJoin (x0 :: x1 :: xs2) = x0 ++ openB ++ chainJoin (x1 :: xs2) :=
          chainJoin_cons_of_ne x0 (x1 :: xs2) (by simp)
        rw [findFrom_open_eq c (A ++ openB) x0
          (openB ++ (chainJoin (x1 :: xs2) ++ (closeB ++ B)))
          (by rw [hc', hcj]; simp [List.append_assoc]) hx0.1 (openB_prefix_append _)
          ((([] : List Char).length + A.length) + 2) (by simp [openB])]
        dsimp only
        have hlt : (A ++ openB).length + x0.length
            < (A ++ openB).length + (chainJoin (x0 :: x1 :: xs2)).length := by
          rw [hcj]
          simp only [List.length_append, openB, List.length_cons, List.length_nil]
          omega
        rw [if_pos hlt]
        have hdropnext : c.drop ((A ++ openB).length + x0.length)
            = openB ++ (chainJoin (x1 :: xs2) ++ (closeB ++ B)) := by
          rw [hc', hcj]
          rw [show (A ++ openB).length + x0.length = (A ++ (openB ++ x0)).length by
            simp [Nat.add_assoc]]
          rw [show A ++ (openB ++ ((x0 ++ openB ++ chainJoin (x1 :: xs2)) ++ (closeB ++ B)))
            = (A ++ (openB ++ x0)) ++ (openB ++ (chainJoin (x1 :: xs2) ++ (closeB ++ B))) by
              simp [List.append_assoc]]
          exact List.drop_left _ _
        have htklen : (A ++ openB).length + (chainJoin (x0 :: x1 :: xs2)).length + 2
            - ((A ++ openB).length + x0.length)
            = (openB ++ (chainJoin (x1 :: xs2) ++ closeB)).length := by
          rw [hcj]
          simp only [List.length_append, openB, closeB, List.length_cons, List.length_nil]
          omega
        have hslice : (c.drop ((A ++ openB).length + x0.length)).take
            ((A ++ openB).length + (chainJoin (x0 :: x1 :: xs2)).length + 2
              - ((A ++ openB).length + x0.length))
            = openB ++ (chainJoin (x1 :: xs2) ++ closeB) := by
          rw [hdropnext, htklen]
          rw [show openB ++ (chainJoin (x1 :: xs2) ++ (closeB ++ B))
            = (openB ++ (chainJoin (x1 :: xs2) ++ closeB)) ++ B by simp [List.append_assoc]]
          exact List.take_left _ B
        rw [hslice]
        have hslicelen : (openB ++ (chainJoin (x1 :: xs2) ++ closeB)).length
            = (chainJoin (x1 :: xs2)).length + 4 := by
          simp only [List.length_append, openB, closeB, List.length_cons, List.length_nil]
          omega
        have hcjlen : (chainJoin (x0 :: x1 :: xs2)).length
            = x0.length + 2 + (chainJoin (x1 :: xs2)).length := by
          rw [hcj]
          simp only [List.length_append, openB, List.length_cons, List.length_nil]
        have hstabslice : removeT g (openB ++ (chainJoin (x1 :: xs2) ++ closeB))
            = remove_templates (openB ++ (chainJoin (x1 :: xs2) ++ closeB)) := by
          apply remove_templates_stable
          omega
        rw [hstabslice, remove_templates_chain (x1 :: xs2) (by simp) hbf1]
        have hshrunk : (openPrefixJoin ((x1 :: xs2).dropLast)).length
            < (openB ++ (chainJoin (x1 :: xs2) ++ closeB)).length := by
          rw [← remove_templates_chain (x1 :: xs2) (by simp) hbf1]
          have hclose2 : (findFrom (openB ++ (chainJoin (x1 :: xs2) ++ closeB)) closeB
              2).isSome = true := by
            rw [findFrom_close_eq _ openB (chainJoin (x1 :: xs2)) closeB rfl
              (cbc_not_mem_chainJoin _ (fun z hz => (hbf1 z hz).2))
              (by simp [closeB, List.isPrefixOf]) 2 (by simp [openB])]
            rfl
          exact (removeT_agree_shrink (openB ++ (chainJoin (x1 :: xs2) ++ closeB)).length).2
            _ _ (Nat.le_refl _) (Nat.le_refl _) (openB_prefix_append _) hclose2
        have htknext : c.take ((A ++ openB).length + x0.length) = A ++ (openB ++ x0) := by
          rw [hc', hcj]
          rw [show (A ++ openB).length + x0.length = (A ++ (openB ++ x0)).length by
            simp [Nat.add_assoc]]
          rw [show A ++ (openB ++ ((x0 ++ openB ++ chainJoin (x1 :: xs2)) ++ (closeB ++ B)))
            = (A ++ (openB ++ x0)) ++ (openB ++ (chainJoin (x1 :: xs2) ++ (closeB ++ B))) by
              simp [List.append_assoc]]
          exact List.take_left _ _
        have hdrend : c.drop ((A ++ openB).length + (chainJoin (x0 :: x1 :: xs2)).length + 2)
            = B := by
          rw [hc']
          rw [show (A ++ openB).length + (chainJoin (x0 :: x1 :: xs2)).length + 2
            = (A ++ (openB ++ (chainJoin (x0 :: x1 :: xs2) ++ closeB))).length by
              simp only [List.length_append, openB, closeB, List.length_cons,
                List.length_nil]
              omega]
          rw [show A ++ (openB ++ (chainJoin (x0 :: x1 :: xs2) ++ (closeB ++ B)))
            = (A ++ (openB ++ (chainJoin (x0 :: x1 :: xs2) ++ closeB))) ++ B by
              simp [List.append_assoc]]
          exact List.drop_left _ B
        rw [htknext, hdrend]
        have hcontentlen : (A ++ (openB ++ x0) ++ openPrefixJoin ((x1 :: xs2).dropLast)
            ++ B).length ≤ g := by
          simp only [List.length_append, openB, List.length_cons, List.length_nil] at *
          omega
        have hstab2 : removeT g (A ++ (openB ++ x0) ++ openPrefixJoin ((x1 :: xs2).dropLast)
            ++ B) = remove_templates (A ++ (openB ++ x0)
              ++ openPrefixJoin ((x1 :: xs2).dropLast) ++ B) := by
          apply remove_templates_stable
          exact hcontentlen
        rw [hstab2]
        apply ih (n - 1) (by omega) _ (by
          simp only [List.length_append] at hcontentlen ⊢
          omega)
        rw [show A ++ (openB ++ x0) ++ openPrefixJoin ((x1 :: xs2).dropLast) ++ B
          = A ++ (openB ++ (x0 ++ (openPrefixJoin ((x1 :: xs2).dropLast) ++ B))) by
            simp [List.append_assoc]]
        rw [balancedAux_bracefree_prepend A hbfA]
        rw [show openB ++ (x0 ++ (openPrefixJoin ((x1 :: xs2).dropLast) ++ B))
          = obc :: obc :: (x0 ++ (openPrefixJoin ((x1 :: xs2).dropLast) ++ B)) from rfl]
        rw [balancedAux_two_open, balancedAux_bracefree_prepend x0 hx0,
          balancedAux_openPrefixJoin ((x1 :: xs2).dropLast)
            (fun z hz => hbf1 z (List.dropLast_subset _ hz)) B]
        have hlendl : ((x1 :: xs2).dropLast).length = xs2.length := by
          simp [List.length_dropLast]
        rw [hlendl]
        have : balancedAux B (0 + (x0 :: x1 :: xs2).length - 1) = true := hdepB
        simp only [List.length_cons, Nat.zero_add] at this
        rw [show 0 + 1 + xs2.length = xs2.length + 2 - 1 by omega]
        exact this

/-- C6: on every text whose template markers are balanced (possibly nested),
`remove_templates` leaves no occurrence of the open marker, and sibling
templates at the same level are removed with the surrounding text
concatenated without extra separators, as in the spec examples:
`moi \x7b\x7baa\x7d\x7d moi` becomes `moi  moi`,
`\x7b\x7ba \x7b\x7bb\x7d\x7d \x7d\x7dxyz` becomes `xyz`, and
`\x7b\x7ba \x7b\x7b\x7b\x7bc\x7d\x7d b\x7d\x7d \x7d\x7dxyz\x7b\x7baa\x7d\x7da`
becomes `xyza`. -/
theorem remove_templates_balanced (c : List Char) (h : Balanced c) :
    findFrom (remove_templates c) openB 0 = none ∧
    remove_templates "moi \x7b\x7baa\x7d\x7d moi".data = "moi  moi".data ∧
    remove_templates "\x7b\x7ba \x7b\x7bb\x7d\x7d \x7d\x7dxyz".data = "xyz".data ∧
    remove_templates
        "\x7b\x7ba \x7b\x7b\x7b\x7bc\x7d\x7d b\x7d\x7d \x7d\x7dxyz\x7b\x7baa\x7d\x7da".data
      = "xyza".data :=
  ⟨remove_templates_balanced_aux c.length c (Nat.le_refl _) h,
   by decide, by decide, by decide⟩

/-- Closed instance for `remove_templates_balanced` at the first spec
example, whose markup is balanced. -/
theorem remove_templates_balanced_instance :
    Balanced "moi \x7b\x7baa\x7d\x7d moi".data ∧
    findFrom (remove_templates "moi \x7b\x7baa\x7d\x7d moi".data) openB 0 = none :=
  ⟨by decide, (remove_templates_balanced "moi \x7b\x7baa\x7d\x7d moi".data (by decide)).1⟩

/-! ### Link rewriting: termination and slug analysis -/

theorem drop_takeWhile_len (p : Char → Bool) (l : List Char) :
    l.drop (l.takeWhile p).length = l.dropWhile p := by
  induction l with
  | nil => rfl
  | cons c t ih =>
      by_cases h : p c
      · simp only [List.takeWhile_cons, h, if_true, List.length_cons, List.drop_succ_cons,
          List.dropWhile_cons, ih]
      · simp only [List.takeWhile_cons, h, if_false, List.length_nil, List.drop_zero,
          List.dropWhile_cons]
        simp [h]

theorem take_two_decomp (L : List Char) (a b : Char) (h : L.take 2 = [a, b]) :
    L = a :: b :: L.drop 2 := by
  match L with
  | [] => simp at h
  | [x] => simp at h
  | x :: y :: t =>
      simp only [List.take_succ_cons, List.take_zero] at h
      injection h with h1 h2
      injection h2 with h2 h3
      subst h1; subst h2
      rfl

theorem matchLinkAt_some_decomp (cs tg : List Char) (d : Option (List Char)) (len : Nat)
    (h : matchLinkAt cs = some (tg, d, len)) :
    ']' ∉ tg ∧ ']' ∉ (d.getD tg) ∧
    ∃ mid T, ']' ∉ mid ∧ len = mid.length + 4 ∧
      cs = '[' :: '[' :: mid ++ ']' :: ']' :: T := by
  unfold matchLinkAt at h
  split at h
  case _ rest =>
    dsimp only at h
    by_cases he : (rest.takeWhile (fun ch => ch != '|' && ch != ']')).isEmpty
    · rw [if_pos he] at h; cases h
    · rw [if_neg he] at h
      have hrest : rest = rest.takeWhile (fun ch => ch != '|' && ch != ']')
          ++ rest.drop (rest.takeWhile (fun ch => ch != '|' && ch != ']')).length := by
        rw [drop_takeWhile_len, List.takeWhile_append_dropWhile]
      have htgt : ']' ∉ rest.takeWhile (fun ch => ch != '|' && ch != ']') := by
        intro hm
        have := List.mem_takeWhile_imp hm
        simp at this
      split at h
      case _ rest3 heq =>
        by_cases hde : (rest3.takeWhile (fun ch => ch != ']')).isEmpty
        · rw [if_pos hde] at h; cases h
        · rw [if_neg hde] at h
          by_cases htk : (rest3.drop (rest3.takeWhile (fun ch => ch != ']')).length).take 2
              = [']', ']']
          · rw [if_pos htk] at h
            simp only [Option.some.injEq, Prod.mk.injEq] at h
            obtain ⟨h1, h2, h3⟩ := h
            have hdisp : ']' ∉ rest3.takeWhile (fun ch => ch != ']') := by
              intro hm
              have := List.mem_takeWhile_imp hm
              simp at this
            have hrest3 : rest3 = rest3.takeWhile (fun ch => ch != ']')
                ++ rest3.drop (rest3.takeWhile (fun ch => ch != ']')).length := by
              rw [drop_takeWhile_len, List.takeWhile_append_dropWhile]
            have hr4 := take_two_decomp _ _ _ htk
            refine ⟨?_, ?_, ?_⟩
            · rw [← h1]
              exact htgt
            · rw [← h2]
              exact hdisp
            · refine ⟨rest.takeWhile (fun ch => ch != '|' && ch != ']')
                ++ '|' :: rest3.takeWhile (fun ch => ch != ']'),
                (rest3.drop (rest3.takeWhile (fun ch => ch != ']')).length).drop 2,
                ?_, ?_, ?_⟩
              · intro hm
                rcases List.mem_append.mp hm with hm2 | hm2
                · exact htgt hm2
                · rcases List.mem_cons.mp hm2 with hm3 | hm3
                  · exact absurd hm3.symm (by decide)
                  · exact hdisp hm3
              · rw [← h3]
                simp only [List.length_append, List.length_cons]
                omega
              · conv_lhs => rw [hrest, heq]
                conv_lhs => rw [hrest3]
                rw [hr4]
                simp [List.append_assoc]
          · rw [if_neg htk] at h; cases h
      case _ tail heq =>
        simp only [Option.some.injEq, Prod.mk.injEq] at h
        obtain ⟨h1, h2, h3⟩ := h
        refine ⟨?_, ?_, ?_⟩
        · rw [← h1]
          exact htgt
        · rw [← h2]
          dsimp only [Option.getD]
          rw [← h1]
          exact htgt
        · refine ⟨rest.takeWhile (fun ch => ch != '|' && ch != ']'), tail, htgt, ?_, ?_⟩
          · rw [← h3]
          · conv_lhs => rw [hrest, heq]
            rfl
      case _ heq1 heq2 => cases h
  case _ => cases h

theorem findLink_some_match : ∀ (c : List Char) (i : Nat) (tg : List Char)
    (d : Option (List Char)) (len : Nat), findLink c = some (i, tg, d, len) →
    matchLinkAt (c.drop i) = some (tg, d, len) := by
  intro c
  induction c with
  | nil => intro i tg d len h; cases h
  | cons c1 t ih =>
      intro i tg d len h
      unfold findLink at h
      split at h
      case _ tg2 d2 len2 hm =>
        simp only [Option.some.injEq, Prod.mk.injEq] at h
        obtain ⟨h1, h2, h3, h4⟩ := h
        rw [← h1, ← h2, ← h3, ← h4]
        exact hm
      case _ hm =>
        cases hr : findLink t with
        | none => rw [hr] at h; cases h
        | some r =>
            rw [hr] at h
            simp only [Option.map_some', Option.some.injEq, Prod.mk.injEq] at h
            obtain ⟨h1, h2, h3, h4⟩ := h
            rw [← h1, ← h2, ← h3, ← h4]
            simp only [List.drop_succ_cons]
            exact ih r.1 r.2.1 r.2.2.1 r.2.2.2 hr

theorem nil_isPrefixOf (T : List Char) : List.isPrefixOf ([] : List Char) T = true := by
  cases T <;> rfl

theorem closeBr_not_prefix_head (x : Char) (L : List Char) (h : x ≠ ']') :
    closeBr.isPrefixOf (x :: L) = false := by
  show ((']' == x) && List.isPrefixOf [']'] L) = false
  have : (']' == x) = false := by simp [Ne.symm h]
  rw [this]
  rfl

theorem countOcc_cons_skip (x : Char) (L : List Char)
    (h : closeBr.isPrefixOf (x :: L) = false) :
    countOcc closeBr (x :: L) = countOcc closeBr L := by
  show (if closeBr.isPrefixOf (x :: L) then 1 else 0) + countOcc closeBr L
    = countOcc closeBr L
  rw [h]
  simp

theorem countOcc_rfree_append (X : List Char) (hX : ']' ∉ X) (Y : List Char) :
    countOcc closeBr (X ++ Y) = countOcc closeBr Y := by
  induction X with
  | nil => rfl
  | cons x X2 ih =>
      have hx : x ≠ ']' := fun he => hX (he ▸ List.mem_cons_self x X2)
      have hX2 : ']' ∉ X2 := fun hm => hX (List.mem_cons_of_mem x hm)
      show countOcc closeBr (x :: (X2 ++ Y)) = countOcc closeBr Y
      rw [countOcc_cons_skip x _ (closeBr_not_prefix_head x _ hx), ih hX2]

theorem countOcc_append_split (P : List Char) (z : Char) (hz : z ≠ ']') (Z : List Char) :
    countOcc closeBr (P ++ z :: Z) = countOcc closeBr P + countOcc closeBr (z :: Z) := by
  induction P with
  | nil =>
      show countOcc closeBr (z :: Z) = 0 + countOcc closeBr (z :: Z)
      omega
  | cons p P2 ih =>
      have hpre : closeBr.isPrefixOf (p :: (P2 ++ z :: Z)) = closeBr.isPrefixOf (p :: P2) := by
        cases P2 with
        | nil =>
            show ((']' == p) && List.isPrefixOf [']'] (z :: Z))
              = ((']' == p) && List.isPrefixOf [']'] [])
            have : (']' == z) = false := by simp [Ne.symm hz]
            show ((']' == p) && ((']' == z) && List.isPrefixOf [] Z))
              = ((']' == p) && false)
            rw [this, nil_isPrefixOf]
            rfl
        | cons q P3 =>
            show ((']' == p) && ((']' == q) && List.isPrefixOf [] (P3 ++ z :: Z)))
              = ((']' == p) && ((']' == q) && List.isPrefixOf [] P3))
            rw [nil_isPrefixOf, nil_isPrefixOf]
      show (if closeBr.isPrefixOf (p :: (P2 ++ z :: Z)) then 1 else 0)
          + countOcc closeBr (P2 ++ z :: Z)
        = ((if closeBr.isPrefixOf (p :: P2) then 1 else 0) + countOcc closeBr P2)
          + countOcc closeBr (z :: Z)
      rw [hpre, ih]
      omega

theorem countOcc_close_pair (T : List Char) :
    countOcc closeBr (']' :: ']' :: T) = 1 + countOcc closeBr (']' :: T) := by
  have hpre : closeBr.isPrefixOf (']' :: ']' :: T) = true := by
    show ((']' == ']') && ((']' == ']') && List.isPrefixOf [] T)) = true
    rw [nil_isPrefixOf]
    rfl
  show (if closeBr.isPrefixOf (']' :: ']' :: T) then 1 else 0) + countOcc closeBr (']' :: T)
    = 1 + countOcc closeBr (']' :: T)
  rw [hpre]
  simp

theorem countOcc_le_cons (x : Char) (T : List Char) :
    countOcc closeBr T ≤ countOcc closeBr (x :: T) := by
  show countOcc closeBr T ≤ (if closeBr.isPrefixOf (x :: T) then 1 else 0) + countOcc closeBr T
  split <;> omega

theorem rbracket_not_mem_slug (tgt : List Char) (h : ']' ∉ tgt) :
    ']' ∉ tgt.map (fun ch => if ch = ' ' then '-' else ch.toLower) := by
  intro hm
  obtain ⟨a, ha, hea⟩ := List.mem_map.mp hm
  have hane : a ≠ ']' := fun he => h (he ▸ ha)
  by_cases hsp : a = ' '
  · rw [if_pos hsp] at hea
    exact absurd hea (by decide)
  · rw [if_neg hsp] at hea
    revert hea
    unfold Char.toLower
    by_cases hc : a.toNat ≥ 65 ∧ a.toNat ≤ 90
    · rw [if_pos hc]
      intro hea
      have h2 := congrArg Char.toNat hea
      have hv : (a.toNat + 32).isValidChar := Or.inl (by omega)
      rw [show (Char.ofNat (a.toNat + 32)).toNat = a.toNat + 32 by
        unfold Char.ofNat
        rw [dif_pos hv]
        rfl] at h2
      have h93 : (']' : Char).toNat = 93 := by decide
      omega
    · rw [if_neg hc]
      intro hea
      exact hane hea

theorem replace_links_step_decrease (c : List Char) (i : Nat) (tg : List Char)
    (d : Option (List Char)) (len : Nat) (h : findLink c = some (i, tg, d, len)) :
    countOcc closeBr (c.take i ++ mkLink tg d ++ c.drop (i + len))
      < countOcc closeBr c := by
  have hm := findLink_some_match c i tg d len h
  obtain ⟨htg, hname, mid, T, hmid, hlen, hdecomp⟩ := matchLinkAt_some_decomp _ _ _ _ hm
  have hdropT : c.drop (i + len) = T := by
    rw [← List.drop_drop]
    rw [hdecomp, hlen]
    rw [show ('[' : Char) :: '[' :: mid ++ ']' :: ']' :: T
      = ('[' :: '[' :: mid ++ [']', ']']) ++ T by simp [List.append_assoc]]
    rw [show mid.length + 4 = ('[' :: '[' :: mid ++ [']', ']'] : List Char).length by
      simp only [List.length_cons, List.length_append, List.length_nil]]
    exact List.drop_left _ _
  have hc : c = c.take i ++ ('[' :: ('[' :: (mid ++ ']' :: ']' :: T))) := by
    conv_lhs => rw [← List.take_append_drop i c]
    rw [hdecomp]
    simp [List.cons_append, List.append_assoc]
  have hcount : countOcc closeBr c
      = countOcc closeBr (c.take i) + (1 + countOcc closeBr (']' :: T)) := by
    conv_lhs => rw [hc]
    rw [countOcc_append_split _ '[' (by decide) _]
    rw [countOcc_cons_skip '[' _ (closeBr_not_prefix_head _ _ (by decide))]
    rw [countOcc_cons_skip '[' _ (closeBr_not_prefix_head _ _ (by decide))]
    rw [countOcc_rfree_append mid hmid]
    rw [countOcc_close_pair]
  have hshape : c.take i ++ mkLink tg d ++ c.drop (i + len)
      = c.take i ++ ('[' :: ((d.getD tg)
          ++ ']' :: '(' :: '#' :: (tg.map (fun ch => if ch = ' ' then '-' else ch.toLower)
            ++ ')' :: T))) := by
    rw [hdropT]
    simp [mkLink, List.append_assoc]
  have hcount2 : countOcc closeBr (c.take i ++ mkLink tg d ++ c.drop (i + len))
      = countOcc closeBr (c.take i) + countOcc closeBr T := by
    rw [hshape]
    rw [countOcc_append_split _ '[' (by decide) _]
    rw [countOcc_cons_skip '[' _ (closeBr_not_prefix_head _ _ (by decide))]
    rw [countOcc_rfree_append _ hname]
    rw [countOcc_cons_skip ']' _ (by rfl)]
    rw [countOcc_cons_skip '(' _ (closeBr_not_prefix_head _ _ (by decide))]
    rw [countOcc_cons_skip '#' _ (closeBr_not_prefix_head _ _ (by decide))]
    rw [countOcc_rfree_append _ (rbracket_not_mem_slug tg htg)]
    rw [countOcc_cons_skip ')' _ (closeBr_not_prefix_head _ _ (by decide))]
  have hTle := countOcc_le_cons ']' T
  omega

theorem replaceLinksF_succ (f : Nat) (c : List Char) :
    replaceLinksF (f + 1) c = match findLink c with
      | none => c
      | some (i, tg, d, len) =>
          replaceLinksF f (c.take i ++ mkLink tg d ++ c.drop (i + len)) := rfl

theorem replaceLinksF_no_match : ∀ (f : Nat) (c : List Char),
    countOcc closeBr c < f → findLink (replaceLinksF f c) = none := by
  intro f
  induction f with
  | zero => intro c h; exact absurd h (Nat.not_lt_zero _)
  | succ f ih =>
      intro c h
      rw [replaceLinksF_succ]
      cases hf : findLink c with
      | none => exact hf
      | some r =>
          obtain ⟨i, tg, d, len⟩ := r
          dsimp only
          have hd := replace_links_step_decrease c i tg d len hf
          exact ih _ (by omega)

theorem replaceLinksF_agree : ∀ (f g : Nat) (c : List Char), countOcc closeBr c < f →
    countOcc closeBr c < g → replaceLinksF f c = replaceLinksF g c := by
  intro f
  induction f with
  | zero => intro g c h _; exact absurd h (Nat.not_lt_zero _)
  | succ f ih =>
      intro g c h hg
      cases g with
      | zero => exact absurd hg (Nat.not_lt_zero _)
      | succ g2 =>
          rw [replaceLinksF_succ, replaceLinksF_succ]
          cases hf : findLink c with
          | none => rfl
          | some r =>
              obtain ⟨i, tg, d, len⟩ := r
              dsimp only
              have hd := replace_links_step_decrease c i tg d len hf
              exact ih g2 _ (by omega) (by omega)

theorem replace_links_stable (c : List Char) (f : Nat) (h : countOcc closeBr c < f) :
    replaceLinksF f c = replace_links c :=
  replaceLinksF_agree f (countOcc closeBr c + 1) c h (Nat.lt_succ_self _)

theorem replace_links_no_match (c : List Char) : findLink (replace_links c) = none :=
  replaceLinksF_no_match (countOcc closeBr c + 1) c (Nat.lt_succ_self _)

/-- C7: the link-rewriting loop of `to_markdown` rewrites the leftmost
double-bracket link to `[display](#slug)` (display defaulting to the
target, slug hyphenating spaces and lower-casing) again and again until
no match remains: every fuel beyond the number of close-bracket pairs
yields the same fixpoint, that fixpoint has no remaining link match
(already-rewritten output never re-matches), and the spec examples
rewrite as stated. -/
theorem to_markdown_links (c : List Char) (f : Nat) (h : countOcc closeBr c < f) :
    replaceLinksF f c = replace_links c ∧
    findLink (replace_links c) = none ∧
    to_markdown "hii [[moi]][[x lol]]".data = "hii [moi](#moi)[x lol](#x-lol)".data ∧
    to_markdown "[[moi|hips]][[x lol|prii proo]] yy".data
      = "[hips](#moi)[prii proo](#x-lol) yy".data :=
  ⟨replace_links_stable c f h, replace_links_no_match c, by decide, by decide⟩

/-- Closed instance for `to_markdown_links`: the first spec example has
two close-bracket pairs, so fuel 3 already reaches the fixpoint. -/
theorem to_markdown_links_instance :
    countOcc closeBr "hii [[moi]][[x lol]]".data < 3 ∧
    (replaceLinksF 3 "hii [[moi]][[x lol]]".data
        = replace_links "hii [[moi]][[x lol]]".data ∧
      findLink (replace_links "hii [[moi]][[x lol]]".data) = none ∧
      to_markdown "hii [[moi]][[x lol]]".data = "hii [moi](#moi)[x lol](#x-lol)".data ∧
      to_markdown "[[moi|hips]][[x lol|prii proo]] yy".data
        = "[hips](#moi)[prii proo](#x-lol) yy".data) :=
  ⟨by decide, to_markdown_links "hii [[moi]][[x lol]]".data 3 (by decide)⟩

end Wikidict
